import Mathlib

/-!
Verification of the downly media-downloader backend.

The definitions below are shallow embeddings of the server-side pipeline:

* `Downly.Queue`    — the job queue / scheduler (`QueueService`, part_008)
* `Downly.Progress` — the progress bus (`ProgressService`, part_007)
* `Downly.Stream`   — the byte counter and stderr parsing of
  `DownloadService.streamDownload` (part_007)
* `Downly.UrlPolicy`— `isValidUrl` (urlValidator.js)
* `Downly.Analyze`  — `YtDlpService.normalizeResponse` (downloadService.js)
* `Downly.Filename` — `safeFilename` (safeFilename.js)

JavaScript `Map`s are modelled as insertion-ordered association lists,
JS numbers that hold byte counts as `Nat`, and `Date` values as `Nat`
timestamps supplied by the caller.  `Math.round(x)` on a non-negative
value is `⌊x + 1/2⌋`, computed here in exact rational/naturals
arithmetic.
-/

namespace Downly

/-! ### Association-list model of JS `Map` -/

/-- `map.get(id)`: the value of the first (and, with distinct keys, only)
entry with the given key. -/
def aget {β : Type} (l : List (String × β)) (id : String) : Option β :=
  (l.find? (fun e => e.1 == id)).map (fun e => e.2)

/-- In-place mutation of the value stored under `id` (JS object mutation
through `map.get(id)`); entries with other keys are untouched. -/
def aupd {β : Type} (l : List (String × β)) (id : String) (f : β → β) :
    List (String × β) :=
  l.map (fun e => if e.1 = id then (e.1, f e.2) else e)

namespace Text

/-! ### JS string primitives shared by several components -/

/-- The JS regexp `\s` / `String.prototype.trim` whitespace class. -/
def isJsWhitespace (c : Char) : Bool :=
  c ∈ ['\t', '\n', '\x0b', '\x0c', '\r', ' ',
    ' ', ' ', ' ', ' ', ' ', ' ', ' ',
    ' ', ' ', ' ', ' ', ' ', ' ',
    ' ', ' ', ' ', ' ', '　', '﻿']

/-- The JS regexp `\w` class `[A-Za-z0-9_]`. -/
def isWordChar (c : Char) : Bool :=
  c.isAlpha || c.isDigit || c = '_'

/-- `String.prototype.trim` on a character list. -/
def jsTrim (l : List Char) : List Char :=
  ((l.dropWhile isJsWhitespace).reverse.dropWhile isJsWhitespace).reverse

/-- `String.prototype.trim`. -/
def jsTrimStr (s : String) : String :=
  String.mk (jsTrim s.data)

/-- Digit run to number (`parseInt` on a nonempty digit string). -/
def digitsToNat (ds : List Char) : Nat :=
  ds.foldl (fun a c => 10 * a + (c.toNat - '0'.toNat)) 0

/-- ASCII lower-casing of one character (`toLowerCase` on the ASCII
range, which is all the patterns below compare against). -/
def toLowerAscii (c : Char) : Char :=
  if c.isUpper then Char.ofNat (c.toNat + 32) else c

/-- `String.prototype.toLowerCase` on the ASCII range. -/
def toLowerString (s : String) : String :=
  String.mk (s.data.map toLowerAscii)

/-- Does the second list begin with the first? -/
def leadsWith : List Char → List Char → Bool
  | [], _ => true
  | _ :: _, [] => false
  | p :: ps, c :: cs => p = c && leadsWith ps cs

/-- `String.prototype.startsWith`. -/
def strStarts (s pat : String) : Bool :=
  leadsWith pat.data s.data

/-- `String.prototype.endsWith`. -/
def strEnds (s pat : String) : Bool :=
  leadsWith pat.data.reverse s.data.reverse

end Text

namespace Queue

/-- `JobType` from part_008: `'download' | 'convert'`. -/
inductive JobType where
  | download
  | convert
deriving DecidableEq, Repr

/-- `JobStatus` from part_008. -/
inductive JobStatus where
  | queued
  | downloading
  | converting
  | completed
  | failed
deriving DecidableEq, Repr

/-- The `QueueJob` record of part_008.  `progress` mirrors
`{bytesDownloaded, totalBytes, percentage}`. -/
structure QueueJob where
  id : String
  type : JobType
  url : String
  formatId : Option String := none
  targetFormat : Option String := none
  inputFile : Option String := none
  dependsOn : Option String := none
  status : JobStatus
  createdAt : Nat
  startedAt : Option Nat := none
  completedAt : Option Nat := none
  error : Option String := none
  downloadId : Option String := none
  progress : Option (Nat × Option Nat × Option Nat) := none
deriving DecidableEq, Repr

/-- The mutable state of `QueueService`: the `jobs` map, the FIFO `queue`
of job ids, and the single `activeJob` slot. -/
structure QueueState where
  jobs : List (String × QueueJob)
  queue : List String
  activeJob : Option String
deriving DecidableEq, Repr

/-- The state of a fresh `QueueService`. -/
def initState : QueueState := { jobs := [], queue := [], activeJob := none }

/-- `canJobStart` (part_008 lines 632-643): a job with no dependency can
start; otherwise the dependency must exist and be `completed`. -/
def canJobStart (s : QueueState) (job : QueueJob) : Bool :=
  match job.dependsOn with
  | none => true
  | some d =>
    match aget s.jobs d with
    | none => false
    | some dep => dep.status = JobStatus.completed

/-- The recursion of `processQueue` on the queue: pop ids whose job
record is missing (stale ids) and retry; stop at the first id that is
present (the branches then only emit events).  `activeJob` is checked on
entry and never changes across the recursive calls, so it is examined
once, in `processQueue` itself. -/
def processQueueGo (jobs : List (String × QueueJob)) : List String → List String
  | [] => []
  | head :: rest =>
    match aget jobs head with
    | none => processQueueGo jobs rest
    | some _ => head :: rest

/-- `processQueue` (part_008 lines 751-779).  Returns early when a job is
active or the queue is empty; pops stale ids (head not present in the jobs
map) and retries; otherwise only emits events, leaving the state as is. -/
def processQueue (s : QueueState) : QueueState :=
  if s.activeJob.isSome ∨ s.queue = [] then s
  else { s with queue := processQueueGo s.jobs s.queue }

/-- The body of `finishJob` before the `finally` block: clear `activeJob`
when it references the finished job (the `finally` then runs
`processQueue`). -/
def finishJobPre (s : QueueState) (jobId : String) : QueueState :=
  if s.activeJob = some jobId then { s with activeJob := none } else s

/-- `finishJob` (part_008 lines 732-745): clear `activeJob` if it matches,
then always continue with `processQueue`. -/
def finishJob (s : QueueState) (jobId : String) : QueueState :=
  processQueue (finishJobPre s jobId)

/-- The status/`completedAt` overwrite performed by `completeJob`. -/
def completeUpd (now : Nat) (j : QueueJob) : QueueJob :=
  { j with status := JobStatus.completed, completedAt := some now }

/-- The state of `completeJob` at the moment `processQueue` is entered
(job record updated, `activeJob` cleared when it matched).
`notifyDependentJobs` only emits events and changes no state. -/
def completeJobPre (s : QueueState) (jobId : String) (now : Nat) : QueueState :=
  finishJobPre { s with jobs := aupd s.jobs jobId (completeUpd now) } jobId

/-- `completeJob` (part_008 lines 684-702): no-op for an unknown id;
otherwise overwrite the status to `completed`, stamp `completedAt`, notify
dependents (event only) and run `finishJob`. -/
def completeJob (s : QueueState) (jobId : String) (now : Nat) : QueueState :=
  match aget s.jobs jobId with
  | none => s
  | some _ => processQueue (completeJobPre s jobId now)

/-- The status/error overwrite performed by `failJob` and
`failDependentJobs`. -/
def failUpd (error : String) (now : Nat) (j : QueueJob) : QueueJob :=
  { j with status := JobStatus.failed, error := some error, completedAt := some now }

/-- Whether `failDependentJobs` selects this job: a still-queued convert
job depending on the failed download job. -/
def dependentPred (downloadJobId : String) (j : QueueJob) : Bool :=
  j.type = JobType.convert ∧ j.dependsOn = some downloadJobId ∧ j.status = JobStatus.queued

/-- One iteration of the `failDependentJobs` loop: remove the dependent
from the queue (`splice` at `indexOf`, i.e. erase the first occurrence)
and overwrite it to `failed`. -/
def failDepStep (downloadJobId : String) (error : String) (now : Nat)
    (st : QueueState) (e : String × QueueJob) : QueueState :=
  if dependentPred downloadJobId e.2 then
    { st with
      queue := st.queue.erase e.2.id,
      jobs := aupd st.jobs e.1 (failUpd error now) }
  else st

/-- `failDependentJobs` (part_008 lines 811-827): walk all jobs and fail
the still-queued convert jobs depending on `downloadJobId`. -/
def failDependentJobs (s : QueueState) (downloadJobId : String) (error : String)
    (now : Nat) : QueueState :=
  s.jobs.foldl (failDepStep downloadJobId error now) s

/-- The state of `failJob` at the moment `processQueue` is entered. -/
def failJobPre (s : QueueState) (jobId : String) (error : String) (now : Nat) : QueueState :=
  match aget s.jobs jobId with
  | none => s
  | some j =>
    let s1 := { s with jobs := aupd s.jobs jobId (failUpd error now) }
    let s2 :=
      if j.type = JobType.download then
        failDependentJobs s1 jobId ("Dependency failed: " ++ error) now
      else s1
    finishJobPre s2 jobId

/-- `failJob` (part_008 lines 707-726): no-op for an unknown id; otherwise
overwrite the status to `failed`, cascade-fail queued dependents of a
download job, and run `finishJob`. -/
def failJob (s : QueueState) (jobId : String) (error : String) (now : Nat) : QueueState :=
  match aget s.jobs jobId with
  | none => s
  | some _ => processQueue (failJobPre s jobId error now)

/-- The state of `cancelJob` at the moment `processQueue` is entered: the
job is removed from the queue, `activeJob` cleared when it matched (the
progress-bus `cancelDownload` call touches no scheduler state), and the
job overwritten to `failed` / `Cancelled by user`. -/
def cancelJobPre (s : QueueState) (jobId : String) (now : Nat) : QueueState :=
  match aget s.jobs jobId with
  | none => s
  | some _ =>
    let s1 := { s with queue := s.queue.erase jobId }
    let s2 := if s1.activeJob = some jobId then { s1 with activeJob := none } else s1
    { s2 with jobs := aupd s2.jobs jobId (failUpd "Cancelled by user" now) }

/-- `cancelJob` (part_008 lines 832-864): returns `false` for an unknown
id; otherwise performs `cancelJobPre` and continues with `processQueue`. -/
def cancelJob (s : QueueState) (jobId : String) (now : Nat) : QueueState × Bool :=
  match aget s.jobs jobId with
  | none => (s, false)
  | some _ => (processQueue (cancelJobPre s jobId now), true)

/-- The job-record mutation performed by a successful `startJob`. -/
def startUpd (downloadId : String) (now : Nat) (j : QueueJob) : QueueJob :=
  { j with
    status := if j.type = JobType.download then JobStatus.downloading else JobStatus.converting,
    startedAt := some now,
    downloadId := some downloadId }

/-- `startJob` (part_008 lines 648-679): refuse (returning `false`, no
state change) when the job is unknown, another job is active, the job is
not the queue head, or its dependency is not completed; otherwise pop the
head, occupy `activeJob` and transition the job. -/
def startJob (s : QueueState) (jobId downloadId : String) (now : Nat) : QueueState × Bool :=
  match aget s.jobs jobId with
  | none => (s, false)
  | some job =>
    if s.activeJob.isSome then (s, false)
    else if s.queue.head? ≠ some jobId then (s, false)
    else if ¬ canJobStart s job then (s, false)
    else
      ({ s with
          queue := s.queue.tail,
          activeJob := some jobId,
          jobs := aupd s.jobs jobId (startUpd downloadId now) }, true)

/-- `addDownloadJob` (part_008 lines 530-563).  The generated or supplied
job id is passed in as `id`.  On the duplicate path the source computes
`existingJob.status === 'queued' && this.processing === null`; the class
has no `processing` property, so the second conjunct compares `undefined`
with `null` and is always false. -/
def addDownloadJob (s : QueueState) (url formatId : String) (id : String) (now : Nat) :
    QueueState × (String × Bool) :=
  match aget s.jobs id with
  | some _ => (s, (id, false))
  | none =>
    let job : QueueJob :=
      { id := id, type := JobType.download, url := url, formatId := some formatId,
        status := JobStatus.queued, createdAt := now }
    let s1 := { s with jobs := s.jobs ++ [(id, job)], queue := s.queue ++ [id] }
    let canStart : Bool := s1.activeJob = none ∧ s1.queue.head? = some id
    (if canStart then processQueue s1 else s1, (id, canStart))

/-- `addConvertJob` (part_008 lines 575-627).  The result is `none` when
the source throws (`dependsOn` unknown, or not a download job); the state
is unchanged in that case because validation precedes all mutation. -/
def addConvertJob (s : QueueState) (url targetFormat : String)
    (dependsOn inputFile : Option String) (id : String) (now : Nat) :
    QueueState × Option (String × Bool) :=
  match aget s.jobs id with
  | some existing =>
    (s, some (id, decide (existing.status = JobStatus.queued ∧ s.activeJob = none ∧
      canJobStart s existing = true)))
  | none =>
    let depOk : Bool :=
      match dependsOn with
      | none => true
      | some d =>
        match aget s.jobs d with
        | none => false
        | some dep => dep.type = JobType.download
    if ¬ depOk then (s, none)
    else
      let job : QueueJob :=
        { id := id, type := JobType.convert, url := url, targetFormat := some targetFormat,
          dependsOn := dependsOn, inputFile := inputFile,
          status := JobStatus.queued, createdAt := now }
      let s1 := { s with jobs := s.jobs ++ [(id, job)], queue := s.queue ++ [id] }
      let canStart : Bool := s1.activeJob = none ∧ s1.queue.head? = some id ∧ canJobStart s1 job
      (if canStart then processQueue s1 else s1, some (id, canStart))

/-- The session-status values published by the progress bus
(`DownloadProgress.status` in part_007). -/
inductive SessStatus where
  | downloading
  | completed
  | error
  | cancelled
deriving DecidableEq, Repr

/-- A `DownloadProgress` event as received by the `progress` listener
installed in the `QueueService` constructor. -/
structure ProgressEvt where
  downloadId : String
  bytesDownloaded : Nat
  totalBytes : Option Nat
  percentage : Option Nat
  status : SessStatus
  error : Option String := none
deriving DecidableEq, Repr

/-- The `job.progress` mirror assignment performed by the listener. -/
def mirrorUpd (p : ProgressEvt) (j : QueueJob) : QueueJob :=
  { j with progress := some (p.bytesDownloaded, p.totalBytes, p.percentage) }

/-- The `progress` listener of the `QueueService` constructor (part_008
lines 476-523): find the first job whose `downloadId` matches, mirror the
progress triple, and on a `completed` event transition the job when it is
`downloading`/`converting`; on an `error` event overwrite it to `failed`
unconditionally (cascading to dependents of a download job).  A missing
`progress.error` interpolates as the string `"undefined"`. -/
def progressStep (s : QueueState) (p : ProgressEvt) (now : Nat) : QueueState :=
  match s.jobs.find? (fun e => e.2.downloadId == some p.downloadId) with
  | none => s
  | some entry =>
    let k := entry.1
    let j := entry.2
    let s1 := { s with jobs := aupd s.jobs k (mirrorUpd p) }
    if p.status = SessStatus.completed then
      if j.status = JobStatus.downloading ∨ j.status = JobStatus.converting then
        processQueue (finishJobPre
          { s1 with jobs := aupd s1.jobs k (completeUpd now) } k)
      else s1
    else if p.status = SessStatus.error then
      let s2 := { s1 with jobs := aupd s1.jobs k (failUpd (p.error.getD "undefined") now) }
      let s3 :=
        if j.type = JobType.download then
          failDependentJobs s2 k ("Dependency failed: " ++ p.error.getD "undefined") now
        else s2
      processQueue (finishJobPre s3 k)
    else s1

/-- One scheduler operation, as named in the claims: the two admissions,
`startJob`, the three terminal transitions, and a progress-listener
step. -/
inductive QStep where
  | addDownload (url formatId id : String) (now : Nat)
  | addConvert (url targetFormat : String) (dependsOn inputFile : Option String)
      (id : String) (now : Nat)
  | start (jobId downloadId : String) (now : Nat)
  | complete (jobId : String) (now : Nat)
  | fail (jobId error : String) (now : Nat)
  | cancel (jobId : String) (now : Nat)
  | progress (p : ProgressEvt) (now : Nat)

/-- The state transformer of a scheduler operation (return values
dropped). -/
def applyStep (st : QStep) (s : QueueState) : QueueState :=
  match st with
  | QStep.addDownload url formatId id now => (addDownloadJob s url formatId id now).1
  | QStep.addConvert url t dep inp id now => (addConvertJob s url t dep inp id now).1
  | QStep.start jobId downloadId now => (startJob s jobId downloadId now).1
  | QStep.complete jobId now => completeJob s jobId now
  | QStep.fail jobId error now => failJob s jobId error now
  | QStep.cancel jobId now => (cancelJob s jobId now).1
  | QStep.progress p now => progressStep s p now

/-- The states of the scheduler reachable from a fresh `QueueService` by
any sequence of the operations above. -/
inductive Reachable : QueueState → Prop where
  | init : Reachable initState
  | step : ∀ {s}, Reachable s → ∀ st, Reachable (applyStep st s)

/-- A job status occupying the single active slot. -/
def isActiveStatus (st : JobStatus) : Prop :=
  st = JobStatus.downloading ∨ st = JobStatus.converting

instance (st : JobStatus) : Decidable (isActiveStatus st) := by
  unfold isActiveStatus; infer_instance


/-- The inductive invariant of the scheduler state: distinct job keys, a
duplicate-free queue of admitted ids, job records carrying their own key
as `id`, and the single-active-job property. -/
structure Inv (s : QueueState) : Prop where
  nodupKeys : (s.jobs.map Prod.fst).Nodup
  nodupQueue : s.queue.Nodup
  queueDom : ∀ q ∈ s.queue, q ∈ s.jobs.map Prod.fst
  idEq : ∀ k j, aget s.jobs k = some j → j.id = k
  activeInv : ∀ k j, aget s.jobs k = some j → isActiveStatus j.status → s.activeJob = some k
end Queue

namespace Progress

open Queue (SessStatus)

/-- The `DownloadProgress` record of part_007. -/
structure SessProgress where
  downloadId : String
  bytesDownloaded : Nat
  totalBytes : Option Nat
  percentage : Option Nat
  status : SessStatus
  error : Option String := none
deriving DecidableEq, Repr

/-- The `DownloadSession` record of part_007 (the process/stream handles
are external resources and carry no bus state). -/
structure Session where
  downloadId : String
  url : String
  formatId : String
  progress : SessProgress
  createdAt : Nat
deriving DecidableEq, Repr

/-- The `sessions` map of `ProgressService`. -/
abbrev SessMap := List (String × Session)

/-- `Math.round(bytesDownloaded / totalBytes * 100)` for a positive
total: `⌊100·bytes/total + 1/2⌋`. -/
def roundPct (bytes total : Nat) : Nat :=
  (200 * bytes + total) / (2 * total)

/-- `createSession` (part_007 lines 40-64): idempotent on an existing id;
otherwise store a fresh `downloading` session with zero bytes. -/
def createSession (ps : SessMap) (url formatId id : String) (now : Nat) : SessMap :=
  if (aget ps id).isSome then ps
  else
    ps ++ [(id,
      { downloadId := id, url := url, formatId := formatId,
        progress :=
          { downloadId := id, bytesDownloaded := 0, totalBytes := none,
            percentage := none, status := SessStatus.downloading },
        createdAt := now })]

/-- The fresh progress record `updateProgress` builds: always
`downloading`, with `percentage` computed only for a truthy (non-zero)
total. -/
def freshProgress (id : String) (bytes : Nat) (total : Option Nat) : SessProgress :=
  { downloadId := id, bytesDownloaded := bytes, totalBytes := total,
    percentage :=
      match total with
      | none => none
      | some t => if t = 0 then none else some (roundPct bytes t),
    status := SessStatus.downloading }

/-- `updateProgress` (part_007 lines 76-98): replace the whole progress
record with a fresh `downloading` one.  Returns the new map and the
emitted event. -/
def updateProgress (ps : SessMap) (id : String) (bytes : Nat) (total : Option Nat) :
    SessMap × Option SessProgress :=
  match aget ps id with
  | none => (ps, none)
  | some _ =>
    (aupd ps id (fun sess => { sess with progress := freshProgress id bytes total }),
      some (freshProgress id bytes total))

/-- The progress overwrite performed by `markCompleted`. -/
def completedUpd (p : SessProgress) : SessProgress :=
  { p with status := SessStatus.completed, percentage := some 100 }

/-- `markCompleted` (part_007 lines 103-117). -/
def markCompleted (ps : SessMap) (id : String) : SessMap × Option SessProgress :=
  match aget ps id with
  | none => (ps, none)
  | some sess =>
    (aupd ps id (fun s => { s with progress := completedUpd s.progress }),
      some (completedUpd sess.progress))

/-- The progress overwrite performed by `markError`. -/
def errorUpd (msg : String) (p : SessProgress) : SessProgress :=
  { p with status := SessStatus.error, error := some msg }

/-- `markError` (part_007 lines 122-136). -/
def markError (ps : SessMap) (id : String) (msg : String) : SessMap × Option SessProgress :=
  match aget ps id with
  | none => (ps, none)
  | some sess =>
    (aupd ps id (fun s => { s with progress := errorUpd msg s.progress }),
      some (errorUpd msg sess.progress))

/-- The progress overwrite performed by `cancelDownload`. -/
def cancelUpd (p : SessProgress) : SessProgress :=
  { p with status := SessStatus.cancelled }

/-- The session-map effect of `cancelDownload` (part_007 lines 141-179);
killing the child process and destroying the stream are external effects,
and the delayed session deletion is a separate timer task. -/
def cancelDownload (ps : SessMap) (id : String) : SessMap × Option SessProgress :=
  match aget ps id with
  | none => (ps, none)
  | some sess =>
    (aupd ps id (fun s => { s with progress := cancelUpd s.progress }),
      some (cancelUpd sess.progress))

/-- `getProgress` (part_007 lines 222-225). -/
def getProgress (ps : SessMap) (id : String) : Option SessProgress :=
  (aget ps id).map (fun s => s.progress)

end Progress

namespace Stream

open Progress

/-- Events reaching the `streamDownload` wiring: a stdout chunk through
the byte-counting transform, a stderr line, or the transform flush at end
of stream. -/
inductive StreamItem where
  | chunk (size : Nat)
  | stderrLine (line : String)
  | flush

/-- Expect a literal (already lower-cased) at the current position. -/
def eatLit : List Char → List Char → Option (List Char)
  | [], cs => some cs
  | _ :: _, [] => none
  | l :: ls, c :: cs => if c = l then eatLit ls cs else none

/-- Regexp `\s+`. -/
def eatWs1 (cs : List Char) : Option (List Char) :=
  match cs with
  | [] => none
  | c :: rest =>
    if Text.isJsWhitespace c then some (rest.dropWhile Text.isJsWhitespace) else none

/-- Regexp `\d+\.?\d*`: integer digits plus optional fraction digits. -/
def eatNum (cs : List Char) : Option ((List Char × List Char) × List Char) :=
  let ds := cs.takeWhile Char.isDigit
  let rest := cs.dropWhile Char.isDigit
  if ds = [] then none
  else
    match rest with
    | '.' :: rest2 =>
      some ((ds, rest2.takeWhile Char.isDigit), rest2.dropWhile Char.isDigit)
    | _ => some ((ds, []), rest)

/-- Match the yt-dlp progress pattern
`\[download\]\s+\d+\.?\d*%\s+of\s+(\d+\.?\d*)\s*(MiB|GiB|KiB)` at the head
of an (already lower-cased) character list, returning the captured number
and the unit multiplier. -/
def matchProgressAt (cs : List Char) : Option (List Char × List Char × Nat) := do
  let cs ← eatLit "[download]".data cs
  let cs ← eatWs1 cs
  let (_, cs) ← eatNum cs
  let cs ← eatLit "%".data cs
  let cs ← eatWs1 cs
  let cs ← eatLit "of".data cs
  let cs ← eatWs1 cs
  let ((ds, fs), cs) ← eatNum cs
  let cs := cs.dropWhile Text.isJsWhitespace
  if cs.take 3 = "kib".data then pure (ds, fs, 1024)
  else if cs.take 3 = "mib".data then pure (ds, fs, 1024 * 1024)
  else if cs.take 3 = "gib".data then pure (ds, fs, 1024 * 1024 * 1024)
  else none

/-- Leftmost occurrence of the progress pattern. -/
def searchProgress : List Char → Option (List Char × List Char × Nat)
  | [] => none
  | c :: rest =>
    match matchProgressAt (c :: rest) with
    | some r => some r
    | none => searchProgress rest

/-- The stderr handler's total extraction (part_007 lines 328-347):
match the progress line, scale the captured decimal by the unit, and
`Math.round` the result. -/
def parseTotal (line : String) : Option Nat :=
  match searchProgress (line.data.map Text.toLowerAscii) with
  | none => none
  | some (ds, fs, mult) =>
    let den := 10 ^ fs.length
    let num := Text.digitsToNat ds * den + Text.digitsToNat fs
    some ((2 * num * mult + den) / (2 * den))

/-- The byte counter plus the progress-bus session map. -/
structure RunState where
  bytes : Nat
  sessions : SessMap
deriving DecidableEq, Repr

/-- One event of the `streamDownload` wiring (part_007 lines 302-353): a
chunk bumps the counter and publishes at 64 KiB boundaries or for large
chunks; a stderr progress line republishes the current count with the
recovered total; the flush publishes a final update and `markCompleted`. -/
def stepItem (downloadId : String) (st : RunState) :
    StreamItem → RunState × List SessProgress
  | StreamItem.chunk size =>
    let bytes := st.bytes + size
    if bytes % 65536 = 0 ∨ size ≥ 65536 then
      let r := updateProgress st.sessions downloadId bytes none
      ({ bytes := bytes, sessions := r.1 }, r.2.toList)
    else ({ bytes := bytes, sessions := st.sessions }, [])
  | StreamItem.stderrLine line =>
    match parseTotal line with
    | some t =>
      let r := updateProgress st.sessions downloadId st.bytes (some t)
      ({ bytes := st.bytes, sessions := r.1 }, r.2.toList)
    | none => (st, [])
  | StreamItem.flush =>
    let r1 := updateProgress st.sessions downloadId st.bytes none
    let r2 := markCompleted r1.1 downloadId
    ({ bytes := st.bytes, sessions := r2.1 }, r1.2.toList ++ r2.2.toList)

/-- Run a sequence of stream events, collecting the published progress
events in order. -/
def runItems (downloadId : String) (st : RunState) :
    List StreamItem → RunState × List SessProgress
  | [] => (st, [])
  | it :: rest =>
    let r1 := stepItem downloadId st it
    let r2 := runItems downloadId r1.1 rest
    (r2.1, r1.2 ++ r2.2)

end Stream

namespace UrlPolicy

/-- The outcome of `new URL(u)` that `isValidUrl` inspects: the
`protocol` (with trailing colon) and the `hostname`. -/
structure UrlParts where
  protocol : String
  hostname : String
deriving DecidableEq, Repr

/-- The regexp `^172\.(1[6-9]|2[0-9]|3[0-1])\.`. -/
def is172Private (h : String) : Bool :=
  match h.data with
  | '1' :: '7' :: '2' :: '.' :: a :: b :: '.' :: _ =>
    (a = '1' && '6' ≤ b && b ≤ '9') || (a = '2' && b.isDigit) ||
      (a = '3' && (b = '0' || b = '1'))
  | _ => false

/-- `BLOCKED_PATTERNS` of urlValidator.js, each anchored at the start of
the (lower-cased) hostname. -/
def blockedPattern (h : String) : Bool :=
  Text.strStarts h "localhost" || Text.strStarts h "127." || Text.strStarts h "192.168." ||
  Text.strStarts h "10." || is172Private h || Text.strStarts h "0.0.0.0" ||
  Text.strStarts h "file:" || Text.strStarts h "ftp:" || Text.strStarts h "data:" ||
  Text.strStarts h "javascript:" || Text.strStarts h "vbscript:"

/-- The full blocklist applied to the lower-cased hostname: the anchored
patterns plus the explicit `localhost` / `127.0.0.1` / `::1` equality
checks. -/
def hostBlocked (h : String) : Bool :=
  blockedPattern h || h == "localhost" || h == "127.0.0.1" || h == "::1"

/-- `isValidUrl` (urlValidator.js lines 30-64).  URL parsing is the
runtime's WHATWG `new URL`; it enters the embedding as the oracle
`parse`, with `none` for a parse failure (the `catch` branch). -/
def isValidUrl (url : String) (parse : String → Option UrlParts) : Bool :=
  if url = "" then false
  else if url.length > 2048 then false
  else
    match parse url with
    | none => false
    | some u =>
      if ¬ (u.protocol = "http:" ∨ u.protocol = "https:") then false
      else
        let hostname := Text.toLowerString u.hostname
        if blockedPattern hostname then false
        else if hostname = "localhost" ∨ hostname = "127.0.0.1" ∨ hostname = "::1" then false
        else if hostname = "" then false
        else true

end UrlPolicy

namespace Analyze

/-- The `type` field of a normalized format. -/
inductive FmtKind where
  | video
  | audio
deriving DecidableEq, Repr

/-- The fields of a raw extractor JSON format entry that
`normalizeResponse` reads.  `none` models an absent field; dimensions and
sizes are numbers, the rest strings. -/
structure RawFormat where
  format_id : Option String := none
  ext : Option String := none
  protocol : Option String := none
  vcodec : Option String := none
  acodec : Option String := none
  width : Option Nat := none
  height : Option Nat := none
  resolution : Option String := none
  filesize : Option Nat := none
  filesize_approx : Option Nat := none
deriving DecidableEq, Repr

/-- The extractor JSON fields `normalizeResponse` reads. -/
structure RawInfo where
  title : Option String := none
  thumbnail : Option String := none
  duration : Option Nat := none
  formats : List RawFormat := []
deriving DecidableEq, Repr

/-- A normalized format descriptor. -/
structure ProcFormat where
  format_id : String
  ext : String
  resolution : String
  filesize : String
  type : FmtKind
deriving DecidableEq, Repr

/-- The normalized analysis result. -/
structure MediaInfo where
  title : String
  thumbnail : String
  duration : String
  formats : List ProcFormat
deriving DecidableEq, Repr

/-- JS truthiness of an optional string (absent and `""` are falsy). -/
def strTruthy : Option String → Bool
  | some s => s ≠ ""
  | none => false

/-- JS truthiness of an optional number (absent and `0` are falsy). -/
def natTruthy : Option Nat → Bool
  | some n => n ≠ 0
  | none => false

/-- `format.vcodec && format.vcodec !== 'none'`. -/
def hasVideo (f : RawFormat) : Bool :=
  match f.vcodec with
  | some v => v ≠ "" && v ≠ "none"
  | none => false

/-- `format.acodec && format.acodec !== 'none'`. -/
def hasAudio (f : RawFormat) : Bool :=
  match f.acodec with
  | some a => a ≠ "" && a ≠ "none"
  | none => false

/-- The filters at the top of the `normalizeResponse` loop: skip entries
lacking `format_id`/`ext`, manifest formats, codec-less entries, and
video entries with no dimension hint. -/
def passes (f : RawFormat) : Bool :=
  strTruthy f.format_id && strTruthy f.ext &&
  ¬ (f.ext = some "m3u8" || f.protocol = some "m3u8_native") &&
  (hasVideo f || hasAudio f) &&
  ¬ (hasVideo f && ¬ natTruthy f.height && ¬ natTruthy f.width && ¬ strTruthy f.resolution)

/-- `normalizeContainerType`: lower-case, trim, and canonicalize common
container variants. -/
def normalizeContainerType (ext : String) : String :=
  let n := Text.jsTrimStr (Text.toLowerString ext)
  if n = "m4a" then "mp4"
  else if n = "m4v" then "mp4"
  else if n = "webma" then "webm"
  else if n = "webmv" then "webm"
  else if n = "ogg" then "opus"
  else n

/-- `normalizeResolution`: `"audio"` for audio; otherwise prefer a given
`WxH` / `Np` string, then derive from the dimensions, else
`"unknown"`. -/
def normalizeResolution (f : RawFormat) (t : FmtKind) : String :=
  if t = FmtKind.audio then "audio"
  else
    let fromStr : Option String :=
      match f.resolution with
      | some r =>
        if r ≠ "" ∧ r ≠ "unknown" then
          let res := Text.jsTrimStr r
          if res.data.contains 'x' then some res
          else if Text.strEnds res "p" then some res
          else none
        else none
      | none => none
    match fromStr with
    | some r => r
    | none =>
      if natTruthy f.width ∧ natTruthy f.height then
        toString (f.width.getD 0) ++ "x" ++ toString (f.height.getD 0)
      else if natTruthy f.height then toString (f.height.getD 0) ++ "p"
      else "unknown"

/-- The unit index chosen by the `formatFileSize` division loop. -/
def unitIdx (bytes : Nat) : Nat :=
  if bytes ≥ 1024 ^ 4 then 4
  else if bytes ≥ 1024 ^ 3 then 3
  else if bytes ≥ 1024 ^ 2 then 2
  else if bytes ≥ 1024 then 1
  else 0

/-- `toFixed(2)` then `parseFloat(...).toString()` of `h/100`: print with
up to two decimals, trimming trailing zeros. -/
def hundredthsToString (h : Nat) : String :=
  let q := h / 100
  let r := h % 100
  if r = 0 then toString q
  else if r % 10 = 0 then toString q ++ "." ++ toString (r / 10)
  else if r < 10 then toString q ++ ".0" ++ toString r
  else toString q ++ "." ++ toString r

/-- `formatFileSize`: divide by 1024 up to four times, round to
hundredths (`toFixed(2)`, ties away from zero), trim zeros, append the
unit. -/
def formatFileSize (bytes : Nat) : String :=
  let k := unitIdx bytes
  let den := 1024 ^ k
  let h := (200 * bytes + den) / (2 * den)
  let unit := (["B", "KB", "MB", "GB", "TB"].get? k).getD "B"
  hundredthsToString h ++ " " ++ unit

/-- `normalizeFileSize`: exact size, else approximate with a `~` prefix,
else `"unknown"`. -/
def normalizeFileSize (filesize filesize_approx : Option Nat) : String :=
  match filesize with
  | some n =>
    if n > 0 then formatFileSize n
    else
      match filesize_approx with
      | some m => if m > 0 then "~" ++ formatFileSize m else "unknown"
      | none => "unknown"
  | none =>
    match filesize_approx with
    | some m => if m > 0 then "~" ++ formatFileSize m else "unknown"
    | none => "unknown"

/-- `extractResolutionValue`: the regexp `(\d+)p?` takes the first digit
run of the string; no digits yield 0. -/
def firstDigitRun : List Char → Option (List Char)
  | [] => none
  | c :: rest =>
    if c.isDigit then some (c :: rest.takeWhile Char.isDigit) else firstDigitRun rest

/-- `extractResolutionValue` (downloadService.js lines 505-512). -/
def extractResolutionValue (resolution : String) : Nat :=
  match firstDigitRun resolution.data with
  | some ds => Text.digitsToNat ds
  | none => 0

/-- The kind of a passing raw format: video wins when both codecs are
present. -/
def kindOf (f : RawFormat) : FmtKind :=
  if hasVideo f then FmtKind.video else FmtKind.audio

/-- The normalized descriptor built for a passing raw format. -/
def mkProc (f : RawFormat) : ProcFormat :=
  let t := kindOf f
  { format_id := f.format_id.getD "",
    ext := normalizeContainerType (f.ext.getD ""),
    resolution := normalizeResolution f t,
    filesize := normalizeFileSize f.filesize f.filesize_approx,
    type := t }

/-- The printed name of a kind, used in the duplicate-detection key. -/
def kindStr : FmtKind → String
  | FmtKind.video => "video"
  | FmtKind.audio => "audio"

/-- The duplicate-detection key `` `${type}-${ext}-${resolution}` ``. -/
def fmtKey (p : ProcFormat) : String :=
  kindStr p.type ++ "-" ++ p.ext ++ "-" ++ p.resolution

/-- The `(kind, ext, resolution)` triple a descriptor is deduplicated
by. -/
def tripleOf (p : ProcFormat) : FmtKind × String × String :=
  (p.type, p.ext, p.resolution)

/-- One iteration of the `normalizeResponse` format loop: skip filtered
entries; on a fresh key push the descriptor and remember the key; on a
seen key replace the matching entry only when the newcomer brings a known
size and the existing entry has none. -/
def procStep (st : List String × List ProcFormat) (f : RawFormat) :
    List String × List ProcFormat :=
  if ¬ passes f then st
  else
    let p := mkProc f
    let key := fmtKey p
    if st.1.contains key then
      match st.2.findIdx? (fun e =>
        e.type = p.type ∧ e.ext = p.ext ∧ e.resolution = p.resolution) with
      | some i =>
        match st.2.get? i with
        | some existing =>
          if p.filesize ≠ "unknown" ∧ existing.filesize = "unknown" then
            (st.1, st.2.set i p)
          else st
        | none => st
      | none => st
    else (key :: st.1, st.2 ++ [p])

/-- The comparator of the final `.sort`: `a` may precede `b` iff the
comparator does not order `b` strictly before `a` — video before audio,
then descending numeric resolution. -/
def fmtLE (a b : ProcFormat) : Bool :=
  if a.type = b.type then
    extractResolutionValue b.resolution ≤ extractResolutionValue a.resolution
  else a.type = FmtKind.video

/-- `formatDuration`: seconds to `H:MM:SS` or `M:SS`. -/
def pad2 (n : Nat) : String :=
  if n < 10 then "0" ++ toString n else toString n

/-- `formatDuration` (downloadService.js lines 532-540). -/
def formatDuration (seconds : Nat) : String :=
  let hours := seconds / 3600
  let minutes := (seconds % 3600) / 60
  let secs := seconds % 60
  if hours > 0 then toString hours ++ ":" ++ pad2 minutes ++ ":" ++ pad2 secs
  else toString minutes ++ ":" ++ pad2 secs

/-- `normalizeResponse` (downloadService.js lines 364-446): filter,
normalize and deduplicate the formats, then sort them (video first,
descending numeric resolution; JS `sort` is a stable comparison sort,
modelled by `mergeSort` on the comparator's non-strict relation). -/
def normalizeResponse (info : RawInfo) : MediaInfo :=
  let processed := (info.formats.foldl procStep ([], [])).2
  let sorted := processed.mergeSort fmtLE
  { title :=
      match info.title with
      | some t => if t = "" then "Unknown Title" else t
      | none => "Unknown Title",
    thumbnail :=
      match info.thumbnail with
      | some t => t
      | none => "",
    duration :=
      match info.duration with
      | some d => if d = 0 then "unknown" else formatDuration d
      | none => "unknown",
    formats := sorted }

end Analyze

namespace Filename

open Text

/-- The character class kept by `safeFilename`'s first `replace`:
`[^\w\s.-]` is removed, so word characters, whitespace, dots and hyphens
survive. -/
def keepChar (c : Char) : Bool :=
  isWordChar c || isJsWhitespace c || c = '.' || c = '-'

/-- `replace(/\s+/g, '_')`: each maximal whitespace run becomes one
underscore.  The flag records whether the previous character was
whitespace, i.e. whether the run already emitted its underscore. -/
def collapseWsGo : Bool → List Char → List Char
  | _, [] => []
  | prevWs, c :: rest =>
    if isJsWhitespace c then
      if prevWs then collapseWsGo true rest
      else '_' :: collapseWsGo true rest
    else c :: collapseWsGo false rest

/-- `replace(/\s+/g, '_')` on a whole list. -/
def collapseWs (l : List Char) : List Char :=
  collapseWsGo false l

/-- `replace(/_{2,}/g, '_')`: every maximal underscore run collapses to a
single underscore (runs of length one are already single).  The flag
records whether the previous character was an underscore. -/
def collapseUndGo : Bool → List Char → List Char
  | _, [] => []
  | prev, c :: rest =>
    if c = '_' then
      if prev then collapseUndGo true rest
      else '_' :: collapseUndGo true rest
    else c :: collapseUndGo false rest

/-- `replace(/_{2,}/g, '_')` on a whole list. -/
def collapseUnd (l : List Char) : List Char :=
  collapseUndGo false l

/-- `replace(/^_+|_+$/g, '')`: drop leading and trailing underscore
runs. -/
def stripEdgeUnd (l : List Char) : List Char :=
  ((l.dropWhile (fun c => c = '_')).reverse.dropWhile (fun c => c = '_')).reverse

/-- The `safeFilename` pipeline on characters: strip disallowed
characters, collapse whitespace to `_`, collapse repeated `_`, trim edge
`_`, `slice(0, 100)`, `trim()`. -/
def safeFilenameCore (l : List Char) : List Char :=
  jsTrim ((stripEdgeUnd (collapseUnd (collapseWs (l.filter keepChar)))).take 100)

/-- `safeFilename` (safeFilename.js lines 12-23): empty input and an
empty pipeline result fall back to the literal `"download"`. -/
def safeFilename (name : String) : String :=
  if name = "" then "download"
  else
    let r := safeFilenameCore name.data
    if r = [] then "download" else String.mk r

end Filename

end Downly

/-! ## Lemmas and theorems -/

namespace Downly

section AList

variable {β : Type}

theorem aget_nil (id : String) : aget ([] : List (String × β)) id = none := rfl

theorem aget_cons (e : String × β) (l : List (String × β)) (id : String) :
    aget (e :: l) id = if e.1 = id then some e.2 else aget l id := by
  by_cases h : e.1 = id <;> simp [aget, List.find?_cons, h]

theorem aget_append (l₁ l₂ : List (String × β)) (id : String) :
    aget (l₁ ++ l₂) id =
      match aget l₁ id with
      | some v => some v
      | none => aget l₂ id := by
  induction l₁ with
  | nil => simp [aget_nil]
  | cons e l ih =>
    by_cases h : e.1 = id <;> simp [aget_cons, h, ih]

theorem aupd_nil (id : String) (f : β → β) : aupd ([] : List (String × β)) id f = [] := rfl

theorem aupd_cons (e : String × β) (l : List (String × β)) (id : String) (f : β → β) :
    aupd (e :: l) id f = (if e.1 = id then (e.1, f e.2) else e) :: aupd l id f := by
  simp [aupd]

theorem aget_aupd_self (l : List (String × β)) (id : String) (f : β → β) :
    aget (aupd l id f) id = (aget l id).map f := by
  induction l with
  | nil => simp [aupd_nil, aget_nil]
  | cons e l ih =>
    by_cases h : e.1 = id <;> simp [aupd_cons, aget_cons, h, ih]

theorem aget_aupd_ne (l : List (String × β)) {k id : String} (f : β → β) (h : k ≠ id) :
    aget (aupd l id f) k = aget l k := by
  induction l with
  | nil => simp [aupd_nil]
  | cons e l ih =>
    by_cases he : e.1 = id
    · have hek : ¬ e.1 = k := by rw [he]; exact fun hc => h hc.symm
      simp [aupd_cons, aget_cons, he, hek, Ne.symm h, ih]
    · by_cases hk : e.1 = k <;> simp [aupd_cons, aget_cons, he, hk, h, Ne.symm h, ih]

theorem keys_aupd (l : List (String × β)) (id : String) (f : β → β) :
    (aupd l id f).map Prod.fst = l.map Prod.fst := by
  induction l with
  | nil => rfl
  | cons e l ih =>
    by_cases h : e.1 = id <;> simp [aupd_cons, h, ih]

theorem aget_isSome_iff (l : List (String × β)) (id : String) :
    (aget l id).isSome ↔ id ∈ l.map Prod.fst := by
  induction l with
  | nil => simp [aget_nil]
  | cons e l ih =>
    by_cases h : e.1 = id
    · simp [aget_cons, h]
    · simp only [aget_cons, if_neg h, List.map_cons, List.mem_cons]
      rw [ih]
      constructor
      · exact fun hm => Or.inr hm
      · rintro (hc | hm)
        · exact absurd hc.symm h
        · exact hm

theorem aget_eq_none_iff (l : List (String × β)) (id : String) :
    aget l id = none ↔ id ∉ l.map Prod.fst := by
  rw [← aget_isSome_iff]
  cases aget l id <;> simp

theorem aget_mem {l : List (String × β)} {id : String} {v : β}
    (h : aget l id = some v) : (id, v) ∈ l := by
  induction l with
  | nil => simp [aget_nil] at h
  | cons e l ih =>
    rw [aget_cons] at h
    by_cases he : e.1 = id
    · rw [if_pos he] at h
      injection h with h2
      rcases e with ⟨a, b⟩
      simp only at he h2
      subst he
      subst h2
      exact List.mem_cons_self _ _
    · rw [if_neg he] at h
      exact List.mem_cons_of_mem _ (ih h)

theorem aget_of_mem_nodup {l : List (String × β)} {id : String} {v : β}
    (hn : (l.map Prod.fst).Nodup) (h : (id, v) ∈ l) : aget l id = some v := by
  induction l with
  | nil => simp at h
  | cons e l ih =>
    simp only [List.map_cons, List.nodup_cons] at hn
    rcases List.mem_cons.mp h with h1 | h1
    · rw [← h1, aget_cons]
      simp
    · have he : e.1 ≠ id := by
        intro hc
        exact hn.1 (by rw [hc]; exact List.mem_map.mpr ⟨(id, v), h1, rfl⟩)
      rw [aget_cons, if_neg he]
      exact ih hn.2 h1

end AList

namespace Queue

/-- `processQueueGo` returns a suffix of the queue it inspects. -/
theorem processQueueGo_sublist (jobs : List (String × QueueJob)) (q : List String) :
    (processQueueGo jobs q).Sublist q := by
  induction q with
  | nil => simp [processQueueGo]
  | cons head rest ih =>
    rw [processQueueGo]
    cases aget jobs head with
    | none => exact ih.trans (List.sublist_cons_self head rest)
    | some j => simp

/-- `processQueue` only inspects and pops the queue: the jobs map is
untouched. -/
theorem processQueue_jobs (s : QueueState) : (processQueue s).jobs = s.jobs := by
  rw [processQueue]
  by_cases h : s.activeJob.isSome = true ∨ s.queue = [] <;> simp [h]

/-- `processQueue` never touches `activeJob` ("the value of `activeJob`
when the drain returns is its value on entry"). -/
theorem processQueue_activeJob (s : QueueState) :
    (processQueue s).activeJob = s.activeJob := by
  rw [processQueue]
  by_cases h : s.activeJob.isSome = true ∨ s.queue = [] <;> simp [h]

/-- `processQueue` at most pops stale heads: the resulting queue is a
sublist of the original. -/
theorem processQueue_queue_sublist (s : QueueState) :
    (processQueue s).queue.Sublist s.queue := by
  rw [processQueue]
  by_cases h : s.activeJob.isSome = true ∨ s.queue = []
  · simp [h]
  · simp only [if_neg h]
    exact processQueueGo_sublist s.jobs s.queue

end Queue

end Downly

namespace Downly

namespace Queue

theorem failUpd_failUpd (err : String) (now : Nat) (j : QueueJob) :
    failUpd err now (failUpd err now j) = failUpd err now j := rfl

theorem failDepStep_activeJob (d err : String) (now : Nat) (st : QueueState)
    (e : String × QueueJob) : (failDepStep d err now st e).activeJob = st.activeJob := by
  rw [failDepStep]; split <;> rfl

theorem failDepStep_keys (d err : String) (now : Nat) (st : QueueState)
    (e : String × QueueJob) :
    (failDepStep d err now st e).jobs.map Prod.fst = st.jobs.map Prod.fst := by
  rw [failDepStep]; split
  · exact keys_aupd st.jobs e.1 (failUpd err now)
  · rfl

theorem failDepStep_queue_sub (d err : String) (now : Nat) (st : QueueState)
    (e : String × QueueJob) : (failDepStep d err now st e).queue ⊆ st.queue := by
  rw [failDepStep]; split
  · exact List.erase_subset _ _
  · exact fun _ h => h

theorem failDepStep_queue_nodup (d err : String) (now : Nat) (st : QueueState)
    (e : String × QueueJob) (h : st.queue.Nodup) :
    (failDepStep d err now st e).queue.Nodup := by
  rw [failDepStep]; split
  · exact h.erase _
  · exact h

theorem failDepStep_aget_ne (d err : String) (now : Nat) (st : QueueState)
    (e : String × QueueJob) {k : String} (hk : e.1 ≠ k) :
    aget (failDepStep d err now st e).jobs k = aget st.jobs k := by
  rw [failDepStep]; split
  · exact aget_aupd_ne st.jobs (failUpd err now) (Ne.symm hk)
  · rfl

theorem failDepStep_aget (d err : String) (now : Nat) (st : QueueState)
    (e : String × QueueJob) (k : String) :
    aget (failDepStep d err now st e).jobs k = aget st.jobs k ∨
      ∃ j, aget st.jobs k = some j ∧
        aget (failDepStep d err now st e).jobs k = some (failUpd err now j) := by
  by_cases hk : e.1 = k
  · subst hk
    rw [failDepStep]; split
    · cases hg : aget st.jobs e.1 with
      | none =>
        left
        simp [aget_aupd_self, hg]
      | some j =>
        right
        exact ⟨j, rfl, by simp [aget_aupd_self, hg]⟩
    · left; rfl
  · left; exact failDepStep_aget_ne d err now st e hk

theorem foldl_failDep_activeJob (d err : String) (now : Nat)
    (l : List (String × QueueJob)) (st : QueueState) :
    (l.foldl (failDepStep d err now) st).activeJob = st.activeJob := by
  induction l generalizing st with
  | nil => rfl
  | cons e l ih => rw [List.foldl_cons, ih, failDepStep_activeJob]

theorem foldl_failDep_keys (d err : String) (now : Nat)
    (l : List (String × QueueJob)) (st : QueueState) :
    (l.foldl (failDepStep d err now) st).jobs.map Prod.fst = st.jobs.map Prod.fst := by
  induction l generalizing st with
  | nil => rfl
  | cons e l ih => rw [List.foldl_cons, ih, failDepStep_keys]

theorem foldl_failDep_queue_sub (d err : String) (now : Nat)
    (l : List (String × QueueJob)) (st : QueueState) :
    (l.foldl (failDepStep d err now) st).queue ⊆ st.queue := by
  induction l generalizing st with
  | nil => exact fun _ h => h
  | cons e l ih =>
    rw [List.foldl_cons]
    exact fun x hx => failDepStep_queue_sub d err now st e (ih _ hx)

theorem foldl_failDep_queue_nodup (d err : String) (now : Nat)
    (l : List (String × QueueJob)) (st : QueueState) (h : st.queue.Nodup) :
    (l.foldl (failDepStep d err now) st).queue.Nodup := by
  induction l generalizing st with
  | nil => exact h
  | cons e l ih =>
    rw [List.foldl_cons]
    exact ih _ (failDepStep_queue_nodup d err now st e h)

theorem foldl_failDep_aget (d err : String) (now : Nat)
    (l : List (String × QueueJob)) (st : QueueState) (k : String) :
    aget (l.foldl (failDepStep d err now) st).jobs k = aget st.jobs k ∨
      ∃ j, aget st.jobs k = some j ∧
        aget (l.foldl (failDepStep d err now) st).jobs k = some (failUpd err now j) := by
  induction l generalizing st with
  | nil => left; rfl
  | cons e l ih =>
    rw [List.foldl_cons]
    rcases ih (failDepStep d err now st e) with h1 | ⟨j', hj', h1⟩
    · rcases failDepStep_aget d err now st e k with h2 | ⟨j, hj, h2⟩
      · left; rw [h1, h2]
      · right; exact ⟨j, hj, by rw [h1, h2]⟩
    · rcases failDepStep_aget d err now st e k with h2 | ⟨j, hj, h2⟩
      · right
        refine ⟨j', ?_, h1⟩
        rw [← h2, hj']
      · right
        refine ⟨j, hj, ?_⟩
        rw [h2] at hj'
        injection hj' with hj'
        rw [h1, ← hj', failUpd_failUpd]

theorem foldl_failDep_aget_not_mem (d err : String) (now : Nat)
    (l : List (String × QueueJob)) (st : QueueState) {k : String}
    (h : k ∉ l.map Prod.fst) :
    aget (l.foldl (failDepStep d err now) st).jobs k = aget st.jobs k := by
  induction l generalizing st with
  | nil => rfl
  | cons e l ih =>
    simp only [List.map_cons, List.mem_cons, not_or] at h
    rw [List.foldl_cons, ih _ h.2, failDepStep_aget_ne d err now st e (Ne.symm h.1)]

theorem foldl_failDep_cascade (d err : String) (now : Nat)
    (l : List (String × QueueJob)) (st : QueueState) {k : String} {j : QueueJob}
    (hn : (l.map Prod.fst).Nodup) (hmem : (k, j) ∈ l)
    (hg : aget st.jobs k = some j) (hid : j.id = k)
    (hpred : dependentPred d j = true) (hq : st.queue.Nodup) :
    aget (l.foldl (failDepStep d err now) st).jobs k = some (failUpd err now j) ∧
      k ∉ (l.foldl (failDepStep d err now) st).queue := by
  induction l generalizing st with
  | nil => simp at hmem
  | cons e l ih =>
    simp only [List.map_cons, List.nodup_cons] at hn
    rw [List.foldl_cons]
    rcases List.mem_cons.mp hmem with h1 | h1
    · have h1s : e = (k, j) := h1.symm
      subst h1s
      have hstep : failDepStep d err now st (k, j) =
          { st with
            queue := st.queue.erase k,
            jobs := aupd st.jobs k (failUpd err now) } := by
        rw [failDepStep]
        simp [hpred, hid]
      have hk_not : k ∉ l.map Prod.fst := hn.1
      constructor
      · rw [foldl_failDep_aget_not_mem d err now l _ hk_not, hstep]
        simp [aget_aupd_self, hg]
      · intro hc
        have hsub := foldl_failDep_queue_sub d err now l (failDepStep d err now st (k, j)) hc
        rw [hstep] at hsub
        exact hq.not_mem_erase hsub
    · have hek : e.1 ≠ k := by
        intro hc
        exact hn.1 (by rw [hc]; exact List.mem_map.mpr ⟨(k, j), h1, rfl⟩)
      exact ih (failDepStep d err now st e) hn.2 h1
        (by rw [failDepStep_aget_ne d err now st e hek]; exact hg)
        (failDepStep_queue_nodup d err now st e hq)

end Queue

end Downly

namespace Downly

theorem aget_append_right_none {β : Type} {l₁ : List (String × β)} (l₂ : List (String × β))
    {id : String} (h : aget l₁ id = none) : aget (l₁ ++ l₂) id = aget l₂ id := by
  rw [aget_append, h]

theorem aget_append_left_some {β : Type} {l₁ : List (String × β)} (l₂ : List (String × β))
    {id : String} {v : β} (h : aget l₁ id = some v) : aget (l₁ ++ l₂) id = some v := by
  rw [aget_append, h]

theorem aget_single {β : Type} (id k : String) (v : β) :
    aget [(id, v)] k = if id = k then some v else none := by
  rw [aget_cons]
  rfl

namespace Queue

theorem Inv.initState : Inv Queue.initState := by
  constructor <;> simp [Queue.initState, aget_nil]

theorem Inv.processQueue {s : QueueState} (h : Inv s) : Inv (processQueue s) := by
  have hj := processQueue_jobs s
  have ha := processQueue_activeJob s
  have hq := processQueue_queue_sublist s
  constructor
  · rw [hj]; exact h.nodupKeys
  · exact hq.nodup h.nodupQueue
  · intro q hq2
    rw [hj]
    exact h.queueDom q (hq.subset hq2)
  · intro k j hg
    rw [hj] at hg
    exact h.idEq k j hg
  · intro k j hg hact
    rw [hj] at hg
    rw [ha]
    exact h.activeInv k j hg hact

theorem idEq_aupd {s : QueueState} (h : Inv s) {id : String} {f : QueueJob → QueueJob}
    (hf : ∀ j, (f j).id = j.id) :
    ∀ k j, aget (aupd s.jobs id f) k = some j → j.id = k := by
  intro k j hg
  by_cases hk : k = id
  · subst hk
    rw [aget_aupd_self] at hg
    cases ho : aget s.jobs k with
    | none => rw [ho] at hg; simp at hg
    | some j0 =>
      rw [ho] at hg
      simp only [Option.map_some'] at hg
      injection hg with hg
      rw [← hg, hf j0]
      exact h.idEq k j0 ho
  · rw [aget_aupd_ne _ _ hk] at hg
    exact h.idEq k j hg

/-- Admitting a fresh job (download or convert) preserves the invariant:
the appended job is `queued`, its key is new, and its record carries the
key. -/
theorem Inv.addFresh {s : QueueState} (h : Inv s) {id : String} {job : QueueJob}
    (hnew : aget s.jobs id = none) (hid : job.id = id) (hst : job.status = JobStatus.queued) :
    Inv { s with jobs := s.jobs ++ [(id, job)], queue := s.queue ++ [id] } := by
  have hidmem : id ∉ s.jobs.map Prod.fst := (aget_eq_none_iff s.jobs id).mp hnew
  constructor
  · simp only [List.map_append, List.map_cons, List.map_nil]
    rw [List.nodup_append]
    exact ⟨h.nodupKeys, List.nodup_singleton id,
      by intro a ha hb; simp at hb; subst hb; exact hidmem ha⟩
  · rw [List.nodup_append]
    refine ⟨h.nodupQueue, List.nodup_singleton id, ?_⟩
    intro a ha hb
    simp at hb
    subst hb
    exact hidmem (h.queueDom a ha)
  · intro q hq
    simp only [List.map_append, List.map_cons, List.map_nil, List.mem_append] at hq ⊢
    rcases hq with hq | hq
    · exact Or.inl (h.queueDom q hq)
    · simp at hq
      subst hq
      simp
  · intro k j hg
    cases ho : aget s.jobs k with
    | some j0 =>
      rw [aget_append_left_some _ ho] at hg
      injection hg with hg
      subst hg
      exact h.idEq k j0 ho
    | none =>
      rw [aget_append_right_none _ ho, aget_single] at hg
      by_cases hk : id = k
      · rw [if_pos hk] at hg
        injection hg with hg
        subst hg
        rw [hid, hk]
      · rw [if_neg hk] at hg
        exact absurd hg (by simp)
  · intro k j hg hact
    cases ho : aget s.jobs k with
    | some j0 =>
      rw [aget_append_left_some _ ho] at hg
      injection hg with hg
      subst hg
      exact h.activeInv k j0 ho hact
    | none =>
      rw [aget_append_right_none _ ho, aget_single] at hg
      by_cases hk : id = k
      · rw [if_pos hk] at hg
        injection hg with hg
        subst hg
        rw [hst] at hact
        rcases hact with hact | hact <;> exact absurd hact (by simp)
      · rw [if_neg hk] at hg
        exact absurd hg (by simp)

theorem Inv.addDownloadJob {s : QueueState} (h : Inv s) (url formatId id : String) (now : Nat) :
    Inv (addDownloadJob s url formatId id now).1 := by
  rw [Queue.addDownloadJob]
  cases ho : aget s.jobs id with
  | some j => exact h
  | none =>
    simp only
    split
    · exact (h.addFresh ho rfl rfl).processQueue
    · exact h.addFresh ho rfl rfl

theorem Inv.addConvertJob {s : QueueState} (h : Inv s) (url targetFormat : String)
    (dependsOn inputFile : Option String) (id : String) (now : Nat) :
    Inv (addConvertJob s url targetFormat dependsOn inputFile id now).1 := by
  rw [Queue.addConvertJob.eq_def]
  cases ho : aget s.jobs id with
  | some j => exact h
  | none =>
    simp only
    split
    · exact h
    · split
      · exact (h.addFresh ho rfl rfl).processQueue
      · exact h.addFresh ho rfl rfl

theorem Inv.startJob {s : QueueState} (h : Inv s) (jobId downloadId : String) (now : Nat) :
    Inv (startJob s jobId downloadId now).1 := by
  rw [Queue.startJob]
  cases ho : aget s.jobs jobId with
  | none => exact h
  | some job =>
    simp only
    by_cases h1 : s.activeJob.isSome = true
    · rw [if_pos h1]; exact h
    rw [if_neg h1]
    by_cases h2 : s.queue.head? ≠ some jobId
    · rw [if_pos h2]; exact h
    rw [if_neg h2]
    by_cases h3 : ¬ canJobStart s job = true
    · rw [if_pos h3]; exact h
    rw [if_neg h3]
    simp only [not_not] at h2
    constructor
    · rw [keys_aupd]; exact h.nodupKeys
    · exact h.nodupQueue.sublist (List.tail_sublist s.queue)
    · intro q hq
      rw [keys_aupd]
      exact h.queueDom q ((List.tail_sublist s.queue).subset hq)
    · exact idEq_aupd h (fun j => rfl)
    · intro k j hg hact
      by_cases hk : k = jobId
      · rw [hk]
      · rw [aget_aupd_ne _ _ hk] at hg
        have := h.activeInv k j hg hact
        rw [this] at h1
        simp at h1

end Queue

end Downly

namespace Downly

namespace Queue

theorem Inv.aupdGeneral {s : QueueState} (h : Inv s) {id : String} {f : QueueJob → QueueJob}
    (hfid : ∀ j, (f j).id = j.id)
    (hact : ∀ j, isActiveStatus (f j).status → isActiveStatus j.status) :
    Inv { s with jobs := aupd s.jobs id f } := by
  constructor
  · rw [keys_aupd]; exact h.nodupKeys
  · exact h.nodupQueue
  · intro q hq
    rw [keys_aupd]
    exact h.queueDom q hq
  · exact idEq_aupd h hfid
  · intro k j hg hj
    by_cases hk : k = id
    · subst hk
      rw [aget_aupd_self] at hg
      cases ho : aget s.jobs k with
      | none => rw [ho] at hg; simp at hg
      | some j0 =>
        rw [ho] at hg
        simp only [Option.map_some'] at hg
        injection hg with hg
        subst hg
        exact h.activeInv k j0 ho (hact j0 hj)
    · rw [aget_aupd_ne _ _ hk] at hg
      exact h.activeInv k j hg hj

theorem Inv.finishJobPre {s : QueueState} {jobId : String} (h : Inv s)
    (hna : ∀ j, aget s.jobs jobId = some j → ¬ isActiveStatus j.status) :
    Inv (finishJobPre s jobId) := by
  rw [Queue.finishJobPre]
  by_cases hb : s.activeJob = some jobId
  · rw [if_pos hb]
    constructor
    · exact h.nodupKeys
    · exact h.nodupQueue
    · exact h.queueDom
    · exact h.idEq
    · intro k j hg hj
      have := h.activeInv k j hg hj
      rw [hb] at this
      injection this with this
      subst this
      exact absurd hj (hna j hg)
  · rw [if_neg hb]
    exact h

theorem Inv.failDependentJobs {s : QueueState} (h : Inv s) (d err : String) (now : Nat) :
    Inv (failDependentJobs s d err now) := by
  rw [Queue.failDependentJobs]
  constructor
  · rw [foldl_failDep_keys]; exact h.nodupKeys
  · exact foldl_failDep_queue_nodup d err now s.jobs s h.nodupQueue
  · intro q hq
    rw [foldl_failDep_keys]
    exact h.queueDom q (foldl_failDep_queue_sub d err now s.jobs s hq)
  · intro k j hg
    rcases foldl_failDep_aget d err now s.jobs s k with h1 | ⟨j0, hj0, h1⟩
    · rw [h1] at hg
      exact h.idEq k j hg
    · rw [h1] at hg
      injection hg with hg
      subst hg
      exact h.idEq k j0 hj0
  · intro k j hg hj
    rw [foldl_failDep_activeJob]
    rcases foldl_failDep_aget d err now s.jobs s k with h1 | ⟨j0, hj0, h1⟩
    · rw [h1] at hg
      exact h.activeInv k j hg hj
    · rw [h1] at hg
      injection hg with hg
      subst hg
      rcases hj with hj | hj <;> exact absurd hj (by simp [failUpd])

theorem Inv.completeJob {s : QueueState} (h : Inv s) (jobId : String) (now : Nat) :
    Inv (completeJob s jobId now) := by
  rw [Queue.completeJob]
  cases ho : aget s.jobs jobId with
  | none => exact h
  | some j =>
    refine Inv.processQueue (Inv.finishJobPre ?_ ?_)
    · exact h.aupdGeneral (fun j => rfl) (by intro j hj; rcases hj with hj | hj <;> simp [completeUpd] at hj)
    · intro j2 hg
      simp only [aget_aupd_self, ho, Option.map_some'] at hg
      injection hg with hg
      subst hg
      intro hact
      rcases hact with hact | hact <;> simp [completeUpd] at hact

theorem Inv.failJob {s : QueueState} (h : Inv s) (jobId err : String) (now : Nat) :
    Inv (failJob s jobId err now) := by
  rw [Queue.failJob]
  cases ho : aget s.jobs jobId with
  | none => exact h
  | some j =>
    rw [Queue.failJobPre, ho]
    simp only
    have h1 : Inv { s with jobs := aupd s.jobs jobId (failUpd err now) } :=
      h.aupdGeneral (fun j => rfl) (by intro j hj; rcases hj with hj | hj <;> simp [failUpd] at hj)
    have hg1 : aget (aupd s.jobs jobId (failUpd err now)) jobId = some (failUpd err now j) := by
      simp [aget_aupd_self, ho]
    split
    · refine Inv.processQueue (Inv.finishJobPre (h1.failDependentJobs _ _ _) ?_)
      intro j2 hg
      rcases foldl_failDep_aget jobId ("Dependency failed: " ++ err) now
        (aupd s.jobs jobId (failUpd err now)) _ jobId with h2 | ⟨j0, hj0, h2⟩
      · rw [Queue.failDependentJobs] at hg
        rw [h2, hg1] at hg
        injection hg with hg
        subst hg
        intro hact
        rcases hact with hact | hact <;> simp [failUpd] at hact
      · rw [Queue.failDependentJobs] at hg
        rw [h2] at hg
        injection hg with hg
        subst hg
        intro hact
        rcases hact with hact | hact <;> simp [failUpd] at hact
    · refine Inv.processQueue (Inv.finishJobPre h1 ?_)
      intro j2 hg
      rw [hg1] at hg
      injection hg with hg
      subst hg
      intro hact
      rcases hact with hact | hact <;> simp [failUpd] at hact

theorem Inv.cancelJob {s : QueueState} (h : Inv s) (jobId : String) (now : Nat) :
    Inv (cancelJob s jobId now).1 := by
  rw [Queue.cancelJob]
  cases ho : aget s.jobs jobId with
  | none => exact h
  | some j =>
    simp only
    refine Inv.processQueue ?_
    rw [Queue.cancelJobPre, ho]
    simp only
    have h1 : Inv { s with queue := s.queue.erase jobId } := by
      constructor
      · exact h.nodupKeys
      · exact h.nodupQueue.erase _
      · intro q hq
        exact h.queueDom q (List.erase_subset _ _ hq)
      · exact h.idEq
      · exact h.activeInv
    set s1 : QueueState := { s with queue := s.queue.erase jobId } with hs1
    have key : ∀ s2 : QueueState, s2.jobs = s1.jobs →
        (∀ k j2, aget s2.jobs k = some j2 → isActiveStatus j2.status →
          s2.activeJob = some k ∨ k = jobId) →
        s2.queue = s1.queue →
        Inv { s2 with jobs := aupd s2.jobs jobId (failUpd "Cancelled by user" now) } := by
      intro s2 hjobs hact hqueue
      constructor
      · rw [keys_aupd, hjobs]; exact h1.nodupKeys
      · rw [hqueue]; exact h1.nodupQueue
      · intro q hq
        rw [keys_aupd, hjobs]
        rw [hqueue] at hq
        exact h1.queueDom q hq
      · intro k j2 hg
        by_cases hk : k = jobId
        · subst hk
          rw [aget_aupd_self] at hg
          cases ho2 : aget s2.jobs k with
          | none => rw [ho2] at hg; simp at hg
          | some j0 =>
            rw [ho2] at hg
            simp only [Option.map_some'] at hg
            injection hg with hg
            subst hg
            rw [hjobs] at ho2
            exact h1.idEq k j0 ho2
        · rw [aget_aupd_ne _ _ hk] at hg
          rw [hjobs] at hg
          exact h1.idEq k j2 hg
      · intro k j2 hg hj
        by_cases hk : k = jobId
        · subst hk
          rw [aget_aupd_self] at hg
          cases ho2 : aget s2.jobs k with
          | none => rw [ho2] at hg; simp at hg
          | some j0 =>
            rw [ho2] at hg
            simp only [Option.map_some'] at hg
            injection hg with hg
            subst hg
            rcases hj with hj | hj <;> simp [failUpd] at hj
        · rw [aget_aupd_ne _ _ hk] at hg
          rcases hact k j2 hg hj with hres | hres
          · exact hres
          · exact absurd hres hk
    split
    · refine key _ rfl ?_ rfl
      intro k j2 hg hj
      have := h1.activeInv k j2 hg hj
      rename_i hmatch
      rw [hmatch] at this
      injection this with this
      exact Or.inr this.symm
    · refine key _ rfl ?_ rfl
      intro k j2 hg hj
      exact Or.inl (h1.activeInv k j2 hg hj)
end Queue

end Downly

namespace Downly

namespace Queue

theorem Inv.progressStep {s : QueueState} (h : Inv s) (p : ProgressEvt) (now : Nat) :
    Inv (progressStep s p now) := by
  rw [Queue.progressStep]
  cases hf : s.jobs.find? (fun e => e.2.downloadId == some p.downloadId) with
  | none => exact h
  | some entry =>
    simp only
    have hmem : entry ∈ s.jobs := List.mem_of_find?_eq_some hf
    have hget : aget s.jobs entry.1 = some entry.2 := by
      rcases entry with ⟨k0, j0⟩
      exact aget_of_mem_nodup h.nodupKeys hmem
    have h1 : Inv { s with jobs := aupd s.jobs entry.1 (mirrorUpd p) } :=
      h.aupdGeneral (fun j => rfl) (fun j hj => hj)
    have hget1 : aget (aupd s.jobs entry.1 (mirrorUpd p)) entry.1 =
        some (mirrorUpd p entry.2) := by
      rw [aget_aupd_self, hget]
      rfl
    split
    · split
      · refine Inv.processQueue (Inv.finishJobPre ?_ ?_)
        · exact h1.aupdGeneral (fun j => rfl)
            (by intro j hj; rcases hj with hj | hj <;> simp [completeUpd] at hj)
        · intro j2 hg
          simp only [aget_aupd_self, hget1, Option.map_some'] at hg
          injection hg with hg
          subst hg
          intro hact
          rcases hact with hact | hact <;> simp [completeUpd] at hact
      · exact h1
    · split
      · have h2 : Inv { s with jobs := aupd (aupd s.jobs entry.1 (mirrorUpd p)) entry.1 (failUpd (p.error.getD "undefined") now) } :=
          h1.aupdGeneral (fun j => rfl)
            (by intro j hj; rcases hj with hj | hj <;> simp [failUpd] at hj)
        have hg2 : aget (aupd (aupd s.jobs entry.1 (mirrorUpd p)) entry.1 (failUpd (p.error.getD "undefined") now)) entry.1 = some (failUpd (p.error.getD "undefined") now (mirrorUpd p entry.2)) := by
          rw [aget_aupd_self, hget1]
          rfl
        split
        · refine Inv.processQueue (Inv.finishJobPre (h2.failDependentJobs _ _ _) ?_)
          intro j2 hg
          rw [Queue.failDependentJobs] at hg
          rcases foldl_failDep_aget entry.1 ("Dependency failed: " ++ p.error.getD "undefined")
            now _ _ entry.1 with h3 | ⟨j0, hj0, h3⟩
          · rw [h3, hg2] at hg
            injection hg with hg
            subst hg
            intro hact
            rcases hact with hact | hact <;> simp [failUpd] at hact
          · rw [h3] at hg
            injection hg with hg
            subst hg
            intro hact
            rcases hact with hact | hact <;> simp [failUpd] at hact
        · refine Inv.processQueue (Inv.finishJobPre h2 ?_)
          intro j2 hg
          rw [hg2] at hg
          injection hg with hg
          subst hg
          intro hact
          rcases hact with hact | hact <;> simp [failUpd] at hact
      · exact h1

theorem Inv.applyStep {s : QueueState} (h : Inv s) (st : QStep) : Inv (applyStep st s) := by
  cases st with
  | addDownload url formatId id now => exact h.addDownloadJob url formatId id now
  | addConvert url t dep inp id now => exact h.addConvertJob url t dep inp id now
  | start jobId downloadId now => exact h.startJob jobId downloadId now
  | complete jobId now => exact h.completeJob jobId now
  | fail jobId error now => exact h.failJob jobId error now
  | cancel jobId now => exact h.cancelJob jobId now
  | progress p now => exact h.progressStep p now

/-- Every reachable scheduler state satisfies the inductive invariant. -/
theorem reachable_inv {s : QueueState} (h : Reachable s) : Inv s := by
  induction h with
  | init => exact Inv.initState
  | step _ st ih => exact ih.applyStep st

end Queue

end Downly

namespace Downly

namespace Queue

/-- C1: Scheduler single-active-job invariant — in every reachable state
of the `QueueService` (under any sequence of `addDownloadJob`,
`addConvertJob`, `startJob`, `completeJob`, `failJob`, `cancelJob` and
progress-listener steps), every job whose status is `downloading` or
`converting` has its id equal to `activeJob`, and there is at most one
such job. -/
theorem single_active_job_invariant {s : QueueState} (h : Reachable s) :
    (∀ e ∈ s.jobs, isActiveStatus e.2.status → s.activeJob = some e.1 ∧ e.2.id = e.1) ∧
    (∀ e1 ∈ s.jobs, ∀ e2 ∈ s.jobs,
      isActiveStatus e1.2.status → isActiveStatus e2.2.status → e1 = e2) := by
  have inv := reachable_inv h
  have hget : ∀ e ∈ s.jobs, aget s.jobs e.1 = some e.2 := by
    intro e he
    rcases e with ⟨k, j⟩
    exact aget_of_mem_nodup inv.nodupKeys he
  constructor
  · intro e he hact
    exact ⟨inv.activeInv e.1 e.2 (hget e he) hact, inv.idEq e.1 e.2 (hget e he)⟩
  · intro e1 he1 e2 he2 hact1 hact2
    have h1 := inv.activeInv e1.1 e1.2 (hget e1 he1) hact1
    have h2 := inv.activeInv e2.1 e2.2 (hget e2 he2) hact2
    have hk : e1.1 = e2.1 := by
      rw [h1] at h2
      exact Option.some.inj h2
    have hv : e1.2 = e2.2 := by
      have g1 := hget e1 he1
      have g2 := hget e2 he2
      rw [hk] at g1
      rw [g1] at g2
      exact Option.some.inj g2
    rcases e1 with ⟨k1, j1⟩
    rcases e2 with ⟨k2, j2⟩
    simp only at hk hv
    subst hk
    subst hv
    rfl

/-- Witness for C1 at a concrete reachable state with one running job:
admit a download job `j1` and start it. -/
theorem single_active_job_invariant_witness :
    (∀ e ∈ (applyStep (QStep.start "j1" "d1" 1)
        (applyStep (QStep.addDownload "u" "f" "j1" 0) initState)).jobs,
      isActiveStatus e.2.status →
        (applyStep (QStep.start "j1" "d1" 1)
          (applyStep (QStep.addDownload "u" "f" "j1" 0) initState)).activeJob = some e.1 ∧
        e.2.id = e.1) ∧
    (∀ e1 ∈ (applyStep (QStep.start "j1" "d1" 1)
        (applyStep (QStep.addDownload "u" "f" "j1" 0) initState)).jobs,
      ∀ e2 ∈ (applyStep (QStep.start "j1" "d1" 1)
        (applyStep (QStep.addDownload "u" "f" "j1" 0) initState)).jobs,
      isActiveStatus e1.2.status → isActiveStatus e2.2.status → e1 = e2) :=
  single_active_job_invariant
    (Reachable.step (Reachable.step Reachable.init (QStep.addDownload "u" "f" "j1" 0))
      (QStep.start "j1" "d1" 1))

/-- Dependency check characterization: `canJobStart` holds iff the
dependency, when present, exists and is completed. -/
theorem canJobStart_iff (s : QueueState) (job : QueueJob) :
    canJobStart s job = true ↔
      ∀ d, job.dependsOn = some d →
        ∃ jd, aget s.jobs d = some jd ∧ jd.status = JobStatus.completed := by
  rw [Queue.canJobStart]
  cases hdep : job.dependsOn with
  | none => simp
  | some d =>
    have hred : (match some d with
        | none => true
        | some dd =>
          match aget s.jobs dd with
          | none => false
          | some dep => decide (dep.status = JobStatus.completed)) =
        (match aget s.jobs d with
        | none => false
        | some dep => decide (dep.status = JobStatus.completed)) := rfl
    rw [hred]
    constructor
    · intro h3 d2 hd2
      injection hd2 with hd2
      subst hd2
      cases hjd : aget s.jobs d with
      | none => rw [hjd] at h3; simp at h3
      | some jd =>
        rw [hjd] at h3
        simp at h3
        exact ⟨jd, rfl, h3⟩
    · intro hall
      rcases hall d rfl with ⟨jd, hjd, hjds⟩
      rw [hjd]
      simp [hjds]

/-- Exhaustive case analysis of `startJob`: the four refusal paths leave
the state unchanged and return false; the success path pops the head,
occupies `activeJob` and rewrites the job. -/
theorem startJob_cases (s : QueueState) (jobId downloadId : String) (now : Nat) :
    (aget s.jobs jobId = none ∧ startJob s jobId downloadId now = (s, false)) ∨
    (∃ job, aget s.jobs jobId = some job ∧ s.activeJob.isSome = true ∧
      startJob s jobId downloadId now = (s, false)) ∨
    (∃ job, aget s.jobs jobId = some job ∧ ¬ s.activeJob.isSome = true ∧
      s.queue.head? ≠ some jobId ∧ startJob s jobId downloadId now = (s, false)) ∨
    (∃ job, aget s.jobs jobId = some job ∧ ¬ s.activeJob.isSome = true ∧
      s.queue.head? = some jobId ∧ ¬ canJobStart s job = true ∧
      startJob s jobId downloadId now = (s, false)) ∨
    (∃ job, aget s.jobs jobId = some job ∧ ¬ s.activeJob.isSome = true ∧
      s.queue.head? = some jobId ∧ canJobStart s job = true ∧
      startJob s jobId downloadId now =
        ({ s with queue := s.queue.tail, activeJob := some jobId, jobs := aupd s.jobs jobId (startUpd downloadId now) }, true)) := by
  cases ho : aget s.jobs jobId with
  | none =>
    exact Or.inl ⟨rfl, by rw [Queue.startJob, ho]⟩
  | some job =>
    by_cases h1 : s.activeJob.isSome = true
    · exact Or.inr (Or.inl ⟨job, rfl, h1, by rw [Queue.startJob, ho]; simp [h1]⟩)
    · by_cases h2 : s.queue.head? ≠ some jobId
      · exact Or.inr (Or.inr (Or.inl ⟨job, rfl, h1, h2,
          by rw [Queue.startJob, ho]; simp [h1, h2]⟩))
      · simp only [not_not] at h2
        by_cases h3 : canJobStart s job = true
        · refine Or.inr (Or.inr (Or.inr (Or.inr ⟨job, rfl, h1, h2, h3, ?_⟩)))
          rw [Queue.startJob, ho]
          simp [h1, h2, h3]
        · refine Or.inr (Or.inr (Or.inr (Or.inl ⟨job, rfl, h1, h2, h3, ?_⟩)))
          rw [Queue.startJob, ho]
          simp [h1, h2, h3]

/-- C2: `startJob(jobId, downloadId)` returns true iff, at the moment of
the call, `activeJob` is null, `jobId` is the head of the queue, and the
job's dependency (if any) exists with status `completed`; on success it
pops the head, occupies `activeJob`, transitions the job to
`downloading`/`converting` according to its type, stamps `startedAt` and
records `downloadId`; on refusal the whole scheduler state is
unchanged. -/
theorem startJob_spec {s : QueueState} (h : Reachable s) (jobId downloadId : String)
    (now : Nat) :
    ((startJob s jobId downloadId now).2 = true ↔
      (s.activeJob = none ∧ s.queue.head? = some jobId ∧
        ∀ j, aget s.jobs jobId = some j → ∀ d, j.dependsOn = some d →
          ∃ jd, aget s.jobs d = some jd ∧ jd.status = JobStatus.completed)) ∧
    ((startJob s jobId downloadId now).2 = true →
      (startJob s jobId downloadId now).1.queue = s.queue.tail ∧
      (startJob s jobId downloadId now).1.activeJob = some jobId ∧
      (∀ j, aget s.jobs jobId = some j →
        ∃ j', aget (startJob s jobId downloadId now).1.jobs jobId = some j' ∧
          j'.status = (if j.type = JobType.download then JobStatus.downloading
            else JobStatus.converting) ∧
          j'.startedAt = some now ∧ j'.downloadId = some downloadId) ∧
      (∀ k, k ≠ jobId → aget (startJob s jobId downloadId now).1.jobs k = aget s.jobs k)) ∧
    ((startJob s jobId downloadId now).2 = false → (startJob s jobId downloadId now).1 = s) := by
  have inv := reachable_inv h
  rcases startJob_cases s jobId downloadId now with
    ⟨ho, heq⟩ | ⟨job, ho, h1, heq⟩ | ⟨job, ho, h1, h2, heq⟩ |
    ⟨job, ho, h1, h2, h3, heq⟩ | ⟨job, ho, h1, h2, h3, heq⟩
  · rw [heq]
    refine ⟨⟨fun hc => absurd hc (by simp), ?_⟩, fun hc => absurd hc (by simp), fun _ => rfl⟩
    rintro ⟨ha, hh, hd⟩
    exfalso
    have hmem : jobId ∈ s.queue := by
      cases hq : s.queue with
      | nil => rw [hq] at hh; simp at hh
      | cons a t =>
        rw [hq] at hh
        simp at hh
        rw [← hh]
        exact List.mem_cons_self a t
    have hs := (aget_isSome_iff s.jobs jobId).mpr (inv.queueDom jobId hmem)
    rw [ho] at hs
    simp at hs
  · rw [heq]
    refine ⟨⟨fun hc => absurd hc (by simp), ?_⟩, fun hc => absurd hc (by simp), fun _ => rfl⟩
    rintro ⟨ha, -, -⟩
    rw [ha] at h1
    simp at h1
  · rw [heq]
    refine ⟨⟨fun hc => absurd hc (by simp), ?_⟩, fun hc => absurd hc (by simp), fun _ => rfl⟩
    rintro ⟨-, hh, -⟩
    exact (h2 hh).elim
  · rw [heq]
    refine ⟨⟨fun hc => absurd hc (by simp), ?_⟩, fun hc => absurd hc (by simp), fun _ => rfl⟩
    rintro ⟨-, -, hd⟩
    exfalso
    rw [(canJobStart_iff s job).mpr (fun d hdep => hd job ho d hdep)] at h3
    simp at h3
  · rw [heq]
    constructor
    · constructor
      · intro _
        refine ⟨Option.not_isSome_iff_eq_none.mp h1, h2, ?_⟩
        intro j hj d hd
        rw [ho] at hj
        injection hj with hj
        subst hj
        exact (canJobStart_iff s job).mp h3 d hd
      · intro _; rfl
    · refine ⟨fun _ => ⟨rfl, rfl, ?_, ?_⟩, fun hc => absurd hc (by simp)⟩
      · intro j hj
        rw [ho] at hj
        injection hj with hj
        subst hj
        refine ⟨startUpd downloadId now job, ?_, rfl, rfl, rfl⟩
        show aget (aupd s.jobs jobId (startUpd downloadId now)) jobId = _
        rw [aget_aupd_self, ho]
        rfl
      · intro k hk
        exact aget_aupd_ne _ _ hk

/-- Witness for C2: with one freshly admitted job `j1`, `startJob`
returns true. -/
theorem startJob_spec_witness :
    (startJob (applyStep (QStep.addDownload "u" "f" "j1" 0) initState) "j1" "d1" 1).2 = true := by
  have h := startJob_spec (Reachable.step Reachable.init (QStep.addDownload "u" "f" "j1" 0))
    "j1" "d1" 1
  apply h.1.mpr
  refine ⟨by decide, by decide, ?_⟩
  intro j hj d hd
  have hval : aget (applyStep (QStep.addDownload "u" "f" "j1" 0) initState).jobs "j1" = some { id := "j1", type := JobType.download, url := "u", formatId := some "f", status := JobStatus.queued, createdAt := 0 } := by decide
  rw [hval] at hj
  injection hj with hj
  subst hj
  simp at hd

end Queue

end Downly


namespace Downly

theorem aget_aupd_cases {β : Type} (l : List (String × β)) (id k : String) (f : β → β)
    (j' : β) (hg : aget (aupd l id f) k = some j') :
    ∃ j, aget l k = some j ∧ (j' = j ∨ j' = f j) := by
  by_cases hk : k = id
  · subst hk
    rw [aget_aupd_self] at hg
    cases ho : aget l k with
    | none => rw [ho] at hg; simp at hg
    | some j =>
      rw [ho] at hg
      simp only [Option.map_some'] at hg
      injection hg with hg
      exact ⟨j, rfl, Or.inr hg.symm⟩
  · rw [aget_aupd_ne _ _ hk] at hg
    exact ⟨j', hg, Or.inl rfl⟩

namespace Queue

theorem finishJobPre_jobs (s : QueueState) (id : String) :
    (finishJobPre s id).jobs = s.jobs := by
  rw [Queue.finishJobPre]; split <;> rfl

theorem finishJobPre_queue (s : QueueState) (id : String) :
    (finishJobPre s id).queue = s.queue := by
  rw [Queue.finishJobPre]; split <;> rfl

theorem completeJob_jobs_cases (s : QueueState) (id : String) (now : Nat) :
    (completeJob s id now).jobs = s.jobs ∨
    (completeJob s id now).jobs = aupd s.jobs id (completeUpd now) := by
  rw [Queue.completeJob]
  split
  · exact Or.inl rfl
  · rw [processQueue_jobs, Queue.completeJobPre, finishJobPre_jobs]
    exact Or.inr rfl

theorem failJob_jobs_cases (s : QueueState) (id err : String) (now : Nat) :
    (failJob s id err now).jobs = s.jobs ∨
    (failJob s id err now).jobs = aupd s.jobs id (failUpd err now) ∨
    (failJob s id err now).jobs =
      (failDependentJobs { s with jobs := aupd s.jobs id (failUpd err now) }
        id ("Dependency failed: " ++ err) now).jobs := by
  rw [Queue.failJob]
  split
  · exact Or.inl rfl
  · rw [processQueue_jobs, Queue.failJobPre]
    rename_i j hj
    rw [hj]
    simp only
    rw [finishJobPre_jobs]
    split
    · exact Or.inr (Or.inr rfl)
    · exact Or.inr (Or.inl rfl)

theorem cancelJob_jobs_cases (s : QueueState) (id : String) (now : Nat) :
    (cancelJob s id now).1.jobs = s.jobs ∨
    (cancelJob s id now).1.jobs = aupd s.jobs id (failUpd "Cancelled by user" now) := by
  rw [Queue.cancelJob]
  split
  · exact Or.inl rfl
  · simp only
    rw [processQueue_jobs, Queue.cancelJobPre]
    rename_i j hj
    rw [hj]
    simp only
    split <;> exact Or.inr rfl

theorem progressStep_jobs_cases (s : QueueState) (p : ProgressEvt) (now : Nat) :
    (progressStep s p now).jobs = s.jobs ∨
    (∃ k0, (progressStep s p now).jobs = aupd s.jobs k0 (mirrorUpd p)) ∨
    (∃ k0, (progressStep s p now).jobs =
      aupd (aupd s.jobs k0 (mirrorUpd p)) k0 (completeUpd now)) ∨
    (∃ k0, (progressStep s p now).jobs =
      aupd (aupd s.jobs k0 (mirrorUpd p)) k0 (failUpd (p.error.getD "undefined") now)) ∨
    (∃ k0, (progressStep s p now).jobs =
      (failDependentJobs { s with jobs := aupd (aupd s.jobs k0 (mirrorUpd p)) k0 (failUpd (p.error.getD "undefined") now) } k0 ("Dependency failed: " ++ p.error.getD "undefined") now).jobs) := by
  rw [Queue.progressStep]
  split
  · exact Or.inl rfl
  · rename_i entry hf
    simp only
    split
    · split
      · rw [processQueue_jobs, finishJobPre_jobs]
        exact Or.inr (Or.inr (Or.inl ⟨entry.1, rfl⟩))
      · exact Or.inr (Or.inl ⟨entry.1, rfl⟩)
    · split
      · rw [processQueue_jobs, finishJobPre_jobs]
        split
        · exact Or.inr (Or.inr (Or.inr (Or.inr ⟨entry.1, rfl⟩)))
        · exact Or.inr (Or.inr (Or.inr (Or.inl ⟨entry.1, rfl⟩)))
      · exact Or.inr (Or.inl ⟨entry.1, rfl⟩)

theorem failDependentJobs_aget (s : QueueState) (d err : String) (now : Nat) (k : String)
    (j' : QueueJob) (hg : aget (failDependentJobs s d err now).jobs k = some j') :
    ∃ j, aget s.jobs k = some j ∧ (j' = j ∨ j'.status = JobStatus.failed) := by
  rw [Queue.failDependentJobs] at hg
  rcases foldl_failDep_aget d err now s.jobs s k with h1 | ⟨j1, hj1, h1⟩
  · rw [hg] at h1
    exact ⟨j', h1.symm, Or.inl rfl⟩
  · rw [hg] at h1
    injection h1 with h1
    exact ⟨j1, hj1, Or.inr (by rw [h1]; rfl)⟩

theorem completeJob_aget (s : QueueState) (id : String) (now : Nat) (k : String)
    (j' : QueueJob) (hg : aget (completeJob s id now).jobs k = some j') :
    ∃ j, aget s.jobs k = some j ∧ (j' = j ∨ j' = completeUpd now j) := by
  rcases completeJob_jobs_cases s id now with hc | hc
  · rw [hc] at hg
    exact ⟨j', hg, Or.inl rfl⟩
  · rw [hc] at hg
    exact aget_aupd_cases _ _ _ _ _ hg

theorem failJob_aget (s : QueueState) (id err : String) (now : Nat) (k : String)
    (j' : QueueJob) (hg : aget (failJob s id err now).jobs k = some j') :
    ∃ j, aget s.jobs k = some j ∧ (j' = j ∨ j'.status = JobStatus.failed) := by
  rcases failJob_jobs_cases s id err now with hc | hc | hc
  · rw [hc] at hg
    exact ⟨j', hg, Or.inl rfl⟩
  · rw [hc] at hg
    rcases aget_aupd_cases _ _ _ _ _ hg with ⟨j, hj, h1 | h1⟩
    · exact ⟨j, hj, Or.inl h1⟩
    · exact ⟨j, hj, Or.inr (by rw [h1]; rfl)⟩
  · rw [hc] at hg
    rcases failDependentJobs_aget _ _ _ _ _ _ hg with ⟨j1, hj1, h1 | h1⟩
    · rcases aget_aupd_cases _ _ _ _ _ hj1 with ⟨j, hj, h2 | h2⟩
      · exact ⟨j, hj, Or.inl (by rw [h1, h2])⟩
      · exact ⟨j, hj, Or.inr (by rw [h1, h2]; rfl)⟩
    · rcases aget_aupd_cases _ _ _ _ _ hj1 with ⟨j, hj, h2 | h2⟩
      · exact ⟨j, hj, Or.inr h1⟩
      · exact ⟨j, hj, Or.inr h1⟩

theorem cancelJob_aget (s : QueueState) (id : String) (now : Nat) (k : String)
    (j' : QueueJob) (hg : aget (cancelJob s id now).1.jobs k = some j') :
    ∃ j, aget s.jobs k = some j ∧ (j' = j ∨ j'.status = JobStatus.failed) := by
  rcases cancelJob_jobs_cases s id now with hc | hc
  · rw [hc] at hg
    exact ⟨j', hg, Or.inl rfl⟩
  · rw [hc] at hg
    rcases aget_aupd_cases _ _ _ _ _ hg with ⟨j, hj, h1 | h1⟩
    · exact ⟨j, hj, Or.inl h1⟩
    · exact ⟨j, hj, Or.inr (by rw [h1]; rfl)⟩

theorem progressStep_aget (s : QueueState) (p : ProgressEvt) (now : Nat) (k : String)
    (j' : QueueJob) (hg : aget (progressStep s p now).jobs k = some j') :
    ∃ j, aget s.jobs k = some j ∧
      (j'.status = j.status ∨ j'.status = JobStatus.completed ∨
        j'.status = JobStatus.failed) := by
  have hmir : ∀ j : QueueJob, (mirrorUpd p j).status = j.status := fun j => rfl
  rcases progressStep_jobs_cases s p now with hc | ⟨k0, hc⟩ | ⟨k0, hc⟩ | ⟨k0, hc⟩ | ⟨k0, hc⟩
  · rw [hc] at hg
    exact ⟨j', hg, Or.inl rfl⟩
  · rw [hc] at hg
    rcases aget_aupd_cases _ _ _ _ _ hg with ⟨j, hj, h1 | h1⟩
    · exact ⟨j, hj, Or.inl (by rw [h1])⟩
    · exact ⟨j, hj, Or.inl (by rw [h1, hmir])⟩
  · rw [hc] at hg
    rcases aget_aupd_cases _ _ _ _ _ hg with ⟨j1, hj1, h1 | h1⟩
    · rcases aget_aupd_cases _ _ _ _ _ hj1 with ⟨j, hj, h2 | h2⟩
      · exact ⟨j, hj, Or.inl (by rw [h1, h2])⟩
      · exact ⟨j, hj, Or.inl (by rw [h1, h2, hmir])⟩
    · rcases aget_aupd_cases _ _ _ _ _ hj1 with ⟨j, hj, h2 | h2⟩
      · exact ⟨j, hj, Or.inr (Or.inl (by rw [h1]; rfl))⟩
      · exact ⟨j, hj, Or.inr (Or.inl (by rw [h1]; rfl))⟩
  · rw [hc] at hg
    rcases aget_aupd_cases _ _ _ _ _ hg with ⟨j1, hj1, h1 | h1⟩
    · rcases aget_aupd_cases _ _ _ _ _ hj1 with ⟨j, hj, h2 | h2⟩
      · exact ⟨j, hj, Or.inl (by rw [h1, h2])⟩
      · exact ⟨j, hj, Or.inl (by rw [h1, h2, hmir])⟩
    · rcases aget_aupd_cases _ _ _ _ _ hj1 with ⟨j, hj, h2 | h2⟩
      · exact ⟨j, hj, Or.inr (Or.inr (by rw [h1]; rfl))⟩
      · exact ⟨j, hj, Or.inr (Or.inr (by rw [h1]; rfl))⟩
  · rw [hc] at hg
    rcases failDependentJobs_aget _ _ _ _ _ _ hg with ⟨j1, hj1, h1 | h1⟩
    · rcases aget_aupd_cases _ _ _ _ _ hj1 with ⟨j2, hj2, h2 | h2⟩
      · rcases aget_aupd_cases _ _ _ _ _ hj2 with ⟨j, hj, h3 | h3⟩
        · exact ⟨j, hj, Or.inl (by rw [h1, h2, h3])⟩
        · exact ⟨j, hj, Or.inl (by rw [h1, h2, h3, hmir])⟩
      · rcases aget_aupd_cases _ _ _ _ _ hj2 with ⟨j, hj, h3 | h3⟩
        · exact ⟨j, hj, Or.inr (Or.inr (by rw [h1, h2]; rfl))⟩
        · exact ⟨j, hj, Or.inr (Or.inr (by rw [h1, h2]; rfl))⟩
    · rcases aget_aupd_cases _ _ _ _ _ hj1 with ⟨j2, hj2, h2 | h2⟩
      · rcases aget_aupd_cases _ _ _ _ _ hj2 with ⟨j, hj, h3 | h3⟩
        · exact ⟨j, hj, Or.inr (Or.inr h1)⟩
        · exact ⟨j, hj, Or.inr (Or.inr h1)⟩
      · rcases aget_aupd_cases _ _ _ _ _ hj2 with ⟨j, hj, h3 | h3⟩
        · exact ⟨j, hj, Or.inr (Or.inr h1)⟩
        · exact ⟨j, hj, Or.inr (Or.inr h1)⟩

theorem addDownloadJob_aget (s : QueueState) (url formatId id2 : String) (now : Nat)
    (k : String) (j' : QueueJob)
    (hg : aget (addDownloadJob s url formatId id2 now).1.jobs k = some j') :
    aget s.jobs k = some j' ∨ (k = id2 ∧ j'.status = JobStatus.queued) := by
  rw [Queue.addDownloadJob] at hg
  split at hg
  · exact Or.inl hg
  · simp only at hg
    have hjobs : aget (s.jobs ++ [(id2, ({ id := id2, type := JobType.download, url := url, formatId := some formatId, status := JobStatus.queued, createdAt := now } : QueueJob))]) k = some j' := by
      split at hg
      · rw [processQueue_jobs] at hg; exact hg
      · exact hg
    rw [aget_append] at hjobs
    cases ho2 : aget s.jobs k with
    | some j =>
      rw [ho2] at hjobs
      simp only at hjobs
      exact Or.inl hjobs
    | none =>
      rw [ho2] at hjobs
      simp only at hjobs
      rw [aget_single] at hjobs
      by_cases hk : id2 = k
      · rw [if_pos hk] at hjobs
        injection hjobs with hjobs
        exact Or.inr ⟨hk.symm, by rw [← hjobs]⟩
      · rw [if_neg hk] at hjobs
        exact absurd hjobs (by simp)

theorem addConvertJob_aget (s : QueueState) (url targetFormat : String)
    (dependsOn inputFile : Option String) (id2 : String) (now : Nat)
    (k : String) (j' : QueueJob)
    (hg : aget (addConvertJob s url targetFormat dependsOn inputFile id2 now).1.jobs k = some j') :
    aget s.jobs k = some j' ∨ (k = id2 ∧ j'.status = JobStatus.queued) := by
  rw [Queue.addConvertJob.eq_def] at hg
  split at hg
  · exact Or.inl hg
  · simp only at hg
    split at hg
    · exact Or.inl hg
    · have hjobs : aget (s.jobs ++ [(id2, ({ id := id2, type := JobType.convert, url := url, targetFormat := some targetFormat, dependsOn := dependsOn, inputFile := inputFile, status := JobStatus.queued, createdAt := now } : QueueJob))]) k = some j' := by
        split at hg
        · rw [processQueue_jobs] at hg; exact hg
        · exact hg
      rw [aget_append] at hjobs
      cases ho2 : aget s.jobs k with
      | some j =>
        rw [ho2] at hjobs
        simp only at hjobs
        exact Or.inl hjobs
      | none =>
        rw [ho2] at hjobs
        simp only at hjobs
        rw [aget_single] at hjobs
        by_cases hk : id2 = k
        · rw [if_pos hk] at hjobs
          injection hjobs with hjobs
          exact Or.inr ⟨hk.symm, by rw [← hjobs]⟩
        · rw [if_neg hk] at hjobs
          exact absurd hjobs (by simp)

end Queue

end Downly

namespace Downly

namespace Queue

/-- Counterexample to C3 (drain invariant as stated): with download job
`j1` active and `j2` merely queued, `cancelJob "j2"` performs a terminal
transition on `j2` (it becomes `failed`) and invokes `processQueue`, but
`activeJob` is `some "j1"` — not null — on entry to the drain routine,
and still `some "j1"` when it returns. -/
theorem drain_entry_not_null_counterexample :
    ((cancelJob ((startJob (applyStep (QStep.addDownload "u" "f" "j2" 0) (applyStep (QStep.addDownload "u" "f" "j1" 0) initState)) "j1" "d1" 1).1) "j2" 2).2 = true) ∧
    ((aget (cancelJobPre ((startJob (applyStep (QStep.addDownload "u" "f" "j2" 0) (applyStep (QStep.addDownload "u" "f" "j1" 0) initState)) "j1" "d1" 1).1) "j2" 2).jobs "j2").map QueueJob.status = some JobStatus.failed) ∧
    ((cancelJob ((startJob (applyStep (QStep.addDownload "u" "f" "j2" 0) (applyStep (QStep.addDownload "u" "f" "j1" 0) initState)) "j1" "d1" 1).1) "j2" 2).1 = processQueue (cancelJobPre ((startJob (applyStep (QStep.addDownload "u" "f" "j2" 0) (applyStep (QStep.addDownload "u" "f" "j1" 0) initState)) "j1" "d1" 1).1) "j2" 2)) ∧
    ((cancelJobPre ((startJob (applyStep (QStep.addDownload "u" "f" "j2" 0) (applyStep (QStep.addDownload "u" "f" "j1" 0) initState)) "j1" "d1" 1).1) "j2" 2).activeJob = some "j1") ∧
    ((cancelJob ((startJob (applyStep (QStep.addDownload "u" "f" "j2" 0) (applyStep (QStep.addDownload "u" "f" "j1" 0) initState)) "j1" "d1" 1).1) "j2" 2).1.activeJob = some "j1") := by
  refine ⟨by decide, by decide, ?_, by decide, by decide⟩
  rw [Queue.cancelJob]
  have : aget ((startJob (applyStep (QStep.addDownload "u" "f" "j2" 0) (applyStep (QStep.addDownload "u" "f" "j1" 0) initState)) "j1" "d1" 1).1).jobs "j2" = some { id := "j2", type := JobType.download, url := "u", formatId := some "f", status := JobStatus.queued, createdAt := 0 } := by decide
  rw [this]

/-- C3 amended: after a terminal transition via `completeJob`, `failJob`
or `cancelJob` of an existing job, `processQueue` is invoked on the
pre-drain state; `processQueue` never modifies `activeJob`, so the value
on return equals the value on entry; and when the transitioned job held
the active slot, `activeJob` is null on entry (hence on return).  When
the job was not the active one — e.g. a merely queued job is cancelled
while another runs — `activeJob` keeps referencing the other running job
on entry. -/
theorem drain_spec (s : QueueState) (jobId err : String) (now : Nat)
    (hex : (aget s.jobs jobId).isSome) :
    (completeJob s jobId now = processQueue (completeJobPre s jobId now)) ∧
    (failJob s jobId err now = processQueue (failJobPre s jobId err now)) ∧
    ((cancelJob s jobId now).1 = processQueue (cancelJobPre s jobId now)) ∧
    (∀ s2 : QueueState, (processQueue s2).activeJob = s2.activeJob) ∧
    (s.activeJob = some jobId →
      (completeJobPre s jobId now).activeJob = none ∧
      (failJobPre s jobId err now).activeJob = none ∧
      (cancelJobPre s jobId now).activeJob = none) := by
  rw [Option.isSome_iff_exists] at hex
  rcases hex with ⟨job, hjob⟩
  refine ⟨?_, ?_, ?_, processQueue_activeJob, ?_⟩
  · rw [Queue.completeJob, hjob]
  · rw [Queue.failJob, hjob]
  · rw [Queue.cancelJob, hjob]
  · intro hact
    refine ⟨?_, ?_, ?_⟩
    · rw [Queue.completeJobPre, Queue.finishJobPre]
      split
      · rfl
      · rename_i hc
        exact absurd hact hc
    · rw [Queue.failJobPre, hjob]
      simp only
      rw [Queue.finishJobPre]
      have hinner : (if job.type = JobType.download then failDependentJobs { s with jobs := aupd s.jobs jobId (failUpd err now) } jobId ("Dependency failed: " ++ err) now else { s with jobs := aupd s.jobs jobId (failUpd err now) }).activeJob = some jobId := by
        by_cases ht : job.type = JobType.download
        · rw [if_pos ht, Queue.failDependentJobs, foldl_failDep_activeJob]
          exact hact
        · rw [if_neg ht]
          exact hact
      rw [if_pos hinner]
    · rw [Queue.cancelJobPre, hjob]
      simp only
      split
      · rfl
      · rename_i hc
        exact absurd hact hc

/-- Witness for the amended C3 at a state whose active job is
terminally transitioned. -/
theorem drain_spec_witness :
    (completeJobPre ((startJob (applyStep (QStep.addDownload "u" "f" "j1" 0) initState) "j1" "d1" 1).1) "j1" 2).activeJob = none ∧
    (failJobPre ((startJob (applyStep (QStep.addDownload "u" "f" "j1" 0) initState) "j1" "d1" 1).1) "j1" "e" 2).activeJob = none ∧
    (cancelJobPre ((startJob (applyStep (QStep.addDownload "u" "f" "j1" 0) initState) "j1" "d1" 1).1) "j1" 2).activeJob = none :=
  (drain_spec ((startJob (applyStep (QStep.addDownload "u" "f" "j1" 0) initState) "j1" "d1" 1).1)
    "j1" "e" 2 (by decide)).2.2.2.2 (by decide)

/-- Counterexample to C4 as stated: the dependency entering `failed`
through `cancelJob` does not cascade.  Admit download `j1` and convert
`j2` depending on it, then cancel `j1`: `j1` is `failed`, but the
dependent `j2` is still `queued`, still sits in the queue, and carries no
`Dependency failed` error. -/
theorem cancel_dependency_no_cascade_counterexample :
    ((aget ((cancelJob ((addConvertJob (applyStep (QStep.addDownload "u" "f" "j1" 0) initState) "u2" "mp3" (some "j1") none "j2" 0).1) "j1" 1).1).jobs "j1").map QueueJob.status = some JobStatus.failed) ∧
    ((aget ((cancelJob ((addConvertJob (applyStep (QStep.addDownload "u" "f" "j1" 0) initState) "u2" "mp3" (some "j1") none "j2" 0).1) "j1" 1).1).jobs "j2").map QueueJob.status = some JobStatus.queued) ∧
    ((aget ((cancelJob ((addConvertJob (applyStep (QStep.addDownload "u" "f" "j1" 0) initState) "u2" "mp3" (some "j1") none "j2" 0).1) "j1" 1).1).jobs "j2").map QueueJob.error = some none) ∧
    (((cancelJob ((addConvertJob (applyStep (QStep.addDownload "u" "f" "j1" 0) initState) "u2" "mp3" (some "j1") none "j2" 0).1) "j1" 1).1).queue = ["j2"]) := by
  refine ⟨by decide, by decide, by decide, by decide⟩

/-- C4 amended: (1) a job leaves `queued` for an active state only when
its dependency (if any) is `completed` — under every scheduler operation;
(2) when the dependency fails via `failJob` (and likewise via a
progress-bus error event, which shares `failDependentJobs`), every
still-queued dependent convert job is removed from the queue and
overwritten to `failed` with error `Dependency failed: <err>`.  The
cascade is not triggered by `cancelJob` of the dependency (see the
counterexample). -/
theorem dependency_semantics {s : QueueState} (h : Reachable s) :
    (∀ st id j j', aget s.jobs id = some j → j.status = JobStatus.queued →
      aget (applyStep st s).jobs id = some j' → isActiveStatus j'.status →
      ∀ d, j.dependsOn = some d →
        ∃ jd, aget s.jobs d = some jd ∧ jd.status = JobStatus.completed) ∧
    (∀ d err now jd, aget s.jobs d = some jd → jd.type = JobType.download →
      ∀ id j, aget s.jobs id = some j → j.type = JobType.convert →
        j.dependsOn = some d → j.status = JobStatus.queued →
        aget (failJob s d err now).jobs id =
          some (failUpd ("Dependency failed: " ++ err) now j) ∧
        id ∉ (failJob s d err now).queue) := by
  have inv := reachable_inv h
  constructor
  · intro st id j j' hj hq hj' hact
    cases st with
    | addDownload url formatId id2 now =>
      rcases addDownloadJob_aget s url formatId id2 now id j' hj' with hc | ⟨-, hc⟩
      · rw [hj] at hc
        injection hc with hc
        rw [← hc, hq] at hact
        rcases hact with hact | hact <;> simp at hact
      · rw [hc] at hact
        rcases hact with hact | hact <;> simp at hact
    | addConvert url t dep inp id2 now =>
      rcases addConvertJob_aget s url t dep inp id2 now id j' hj' with hc | ⟨-, hc⟩
      · rw [hj] at hc
        injection hc with hc
        rw [← hc, hq] at hact
        rcases hact with hact | hact <;> simp at hact
      · rw [hc] at hact
        rcases hact with hact | hact <;> simp at hact
    | start jobId downloadId now =>
      intro d hd
      rcases startJob_cases s jobId downloadId now with
        ⟨ho, heq⟩ | ⟨job, ho, h1, heq⟩ | ⟨job, ho, h1, h2, heq⟩ |
        ⟨job, ho, h1, h2, h3, heq⟩ | ⟨job, ho, h1, h2, h3, heq⟩
      · rw [show applyStep (QStep.start jobId downloadId now) s = (startJob s jobId downloadId now).1 from rfl, heq] at hj'
        rw [hj] at hj'
        injection hj' with hj'
        rw [← hj', hq] at hact
        rcases hact with hact | hact <;> simp at hact
      · rw [show applyStep (QStep.start jobId downloadId now) s = (startJob s jobId downloadId now).1 from rfl, heq] at hj'
        rw [hj] at hj'
        injection hj' with hj'
        rw [← hj', hq] at hact
        rcases hact with hact | hact <;> simp at hact
      · rw [show applyStep (QStep.start jobId downloadId now) s = (startJob s jobId downloadId now).1 from rfl, heq] at hj'
        rw [hj] at hj'
        injection hj' with hj'
        rw [← hj', hq] at hact
        rcases hact with hact | hact <;> simp at hact
      · rw [show applyStep (QStep.start jobId downloadId now) s = (startJob s jobId downloadId now).1 from rfl, heq] at hj'
        rw [hj] at hj'
        injection hj' with hj'
        rw [← hj', hq] at hact
        rcases hact with hact | hact <;> simp at hact
      · rw [show applyStep (QStep.start jobId downloadId now) s = (startJob s jobId downloadId now).1 from rfl, heq] at hj'
        simp only at hj'
        by_cases hid : id = jobId
        · subst hid
          rw [ho] at hj
          injection hj with hj
          subst hj
          exact (canJobStart_iff s job).mp h3 d hd
        · rw [aget_aupd_ne _ _ hid] at hj'
          rw [hj] at hj'
          injection hj' with hj'
          rw [← hj', hq] at hact
          rcases hact with hact | hact <;> simp at hact
    | complete jobId now =>
      rcases completeJob_aget s jobId now id j' hj' with ⟨j0, hj0, hc | hc⟩
      · rw [hj] at hj0
        injection hj0 with hj0
        rw [hc, ← hj0, hq] at hact
        rcases hact with hact | hact <;> simp at hact
      · rw [hc] at hact
        rcases hact with hact | hact <;> simp [completeUpd] at hact
    | fail jobId error now =>
      rcases failJob_aget s jobId error now id j' hj' with ⟨j0, hj0, hc | hc⟩
      · rw [hj] at hj0
        injection hj0 with hj0
        rw [hc, ← hj0, hq] at hact
        rcases hact with hact | hact <;> simp at hact
      · rw [hc] at hact
        rcases hact with hact | hact <;> simp at hact
    | cancel jobId now =>
      rcases cancelJob_aget s jobId now id j' hj' with ⟨j0, hj0, hc | hc⟩
      · rw [hj] at hj0
        injection hj0 with hj0
        rw [hc, ← hj0, hq] at hact
        rcases hact with hact | hact <;> simp at hact
      · rw [hc] at hact
        rcases hact with hact | hact <;> simp at hact
    | progress p now =>
      rcases progressStep_aget s p now id j' hj' with ⟨j0, hj0, hc⟩
      rw [hj] at hj0
      injection hj0 with hj0
      subst hj0
      rcases hc with hc | hc | hc
      · rw [hc, hq] at hact
        rcases hact with hact | hact <;> simp at hact
      · rw [hc] at hact
        rcases hact with hact | hact <;> simp at hact
      · rw [hc] at hact
        rcases hact with hact | hact <;> simp at hact
  · intro d err now jd hjd hjdt id j hj hjt hjdep hjq
    have hne : id ≠ d := by
      intro hc
      rw [hc, hjd] at hj
      injection hj with hj
      rw [hj] at hjdt
      rw [hjt] at hjdt
      exact absurd hjdt (by simp)
    have hpre : dependentPred d j = true := by
      rw [Queue.dependentPred]
      simp [hjt, hjdep, hjq]
    rw [Queue.failJob, hjd]
    simp only
    rw [Queue.failJobPre, hjd]
    simp only
    rw [if_pos (by rw [hjdt])]
    have hs1 : aget (aupd s.jobs d (failUpd err now)) id = some j := by
      rw [aget_aupd_ne _ _ hne]
      exact hj
    have hmem : (id, j) ∈ (aupd s.jobs d (failUpd err now)) := aget_mem hs1
    have hcasc := foldl_failDep_cascade d ("Dependency failed: " ++ err) now
      (aupd s.jobs d (failUpd err now))
      { s with jobs := aupd s.jobs d (failUpd err now) }
      (by rw [keys_aupd]; exact inv.nodupKeys) hmem hs1
      (inv.idEq id j hj) hpre inv.nodupQueue
    rw [Queue.failDependentJobs]
    constructor
    · rw [processQueue_jobs, finishJobPre_jobs]
      exact hcasc.1
    · intro hc
      have hsub := (processQueue_queue_sublist _).subset hc
      rw [finishJobPre_queue] at hsub
      exact hcasc.2 hsub

/-- Witness for the amended C4: failing download `j1` cascades to the
queued dependent convert job `j2`. -/
theorem dependency_semantics_witness :
    aget (failJob ((addConvertJob (applyStep (QStep.addDownload "u" "f" "j1" 0) initState) "u2" "mp3" (some "j1") none "j2" 0).1) "j1" "boom" 1).jobs "j2" =
      some (failUpd "Dependency failed: boom" 1 { id := "j2", type := JobType.convert, url := "u2", targetFormat := some "mp3", dependsOn := some "j1", status := JobStatus.queued, createdAt := 0 }) ∧
    "j2" ∉ (failJob ((addConvertJob (applyStep (QStep.addDownload "u" "f" "j1" 0) initState) "u2" "mp3" (some "j1") none "j2" 0).1) "j1" "boom" 1).queue := by
  have h := (dependency_semantics (Reachable.step (Reachable.step Reachable.init
    (QStep.addDownload "u" "f" "j1" 0))
    (QStep.addConvert "u2" "mp3" (some "j1") none "j2" 0))).2
    "j1" "boom" 1
    { id := "j1", type := JobType.download, url := "u", formatId := some "f", status := JobStatus.queued, createdAt := 0 }
    (by decide) rfl "j2"
    { id := "j2", type := JobType.convert, url := "u2", targetFormat := some "mp3", dependsOn := some "j1", status := JobStatus.queued, createdAt := 0 }
    (by decide) rfl rfl rfl
  exact h

/-- Counterexample to C5 as stated: terminal transitions are not
ignored.  After `j1` runs and `completeJob` marks it `completed`, a
later `cancelJob "j1"` overwrites the terminal status to `failed`. -/
theorem terminal_overwrite_counterexample :
    ((aget (completeJob ((startJob (applyStep (QStep.addDownload "u" "f" "j1" 0) initState) "j1" "d1" 1).1) "j1" 2).jobs "j1").map QueueJob.status = some JobStatus.completed) ∧
    ((aget ((cancelJob (completeJob ((startJob (applyStep (QStep.addDownload "u" "f" "j1" 0) initState) "j1" "d1" 1).1) "j1" 2) "j1" 3).1).jobs "j1").map QueueJob.status = some JobStatus.failed) := by
  exact ⟨by decide, by decide⟩

/-- C5 amended: the scheduler's terminal operations overwrite a job's
status regardless of its previous value — `completeJob` always sets
`completed`, `failJob` and `cancelJob` always set `failed` — so repeated
terminal transitions of a different kind change a terminal status instead
of being ignored; only the progress-listener completion path is guarded,
leaving a job already `completed` or `failed` with its status
unchanged. -/
theorem status_transition_spec {s : QueueState} (h : Reachable s) (id : String)
    (j : QueueJob) (now : Nat) (err : String) (p : ProgressEvt)
    (hj : aget s.jobs id = some j) :
    ((aget (completeJob s id now).jobs id).map QueueJob.status = some JobStatus.completed) ∧
    ((aget (failJob s id err now).jobs id).map QueueJob.status = some JobStatus.failed) ∧
    ((aget (cancelJob s id now).1.jobs id).map QueueJob.status = some JobStatus.failed) ∧
    (p.status = SessStatus.completed →
      (j.status = JobStatus.completed ∨ j.status = JobStatus.failed) →
      (aget (progressStep s p now).jobs id).map QueueJob.status = some j.status) := by
  have inv := reachable_inv h
  refine ⟨?_, ?_, ?_, ?_⟩
  · rw [Queue.completeJob, hj]
    simp only
    rw [processQueue_jobs, Queue.completeJobPre, finishJobPre_jobs, aget_aupd_self, hj]
    rfl
  · rw [Queue.failJob, hj]
    simp only
    rw [processQueue_jobs, Queue.failJobPre, hj]
    simp only
    rw [finishJobPre_jobs]
    have hbase : aget (aupd s.jobs id (failUpd err now)) id = some (failUpd err now j) := by
      rw [aget_aupd_self, hj]
      rfl
    split
    · rw [Queue.failDependentJobs]
      rcases foldl_failDep_aget id ("Dependency failed: " ++ err) now _ _ id with h1 | ⟨j1, hj1, h1⟩
      · rw [h1, hbase]
        rfl
      · rw [h1]
        rfl
    · rw [hbase]
      rfl
  · rw [Queue.cancelJob, hj]
    simp only
    rw [processQueue_jobs, Queue.cancelJobPre, hj]
    simp only
    split <;> (rw [aget_aupd_self, hj]; rfl)
  · intro hps hterm
    rw [Queue.progressStep]
    cases hf : s.jobs.find? (fun e => e.2.downloadId == some p.downloadId) with
    | none => rw [hj]; rfl
    | some entry =>
      simp only
      rw [if_pos hps]
      have hmem : entry ∈ s.jobs := List.mem_of_find?_eq_some hf
      have hget : aget s.jobs entry.1 = some entry.2 := by
        rcases entry with ⟨k0, j0⟩
        exact aget_of_mem_nodup inv.nodupKeys hmem
      by_cases hk : entry.1 = id
      · rw [hk] at hget
        rw [hget] at hj
        injection hj with hj
        rw [if_neg (by rw [hj]; rcases hterm with ht | ht <;> rw [ht] <;> simp)]
        rw [hk, aget_aupd_self, hget, hj]
        rfl
      · split
        · rw [processQueue_jobs, finishJobPre_jobs, aget_aupd_ne _ _ (Ne.symm hk), aget_aupd_ne _ _ (Ne.symm hk), hj]
          rfl
        · rw [aget_aupd_ne _ _ (Ne.symm hk), hj]
          rfl

/-- Witness for the amended C5: concrete overwrites and the guarded
progress path on a completed job. -/
theorem status_transition_spec_witness :
    ((aget (completeJob (completeJob ((startJob (applyStep (QStep.addDownload "u" "f" "j1" 0) initState) "j1" "d1" 1).1) "j1" 2) "j1" 3).jobs "j1").map QueueJob.status = some JobStatus.completed) ∧
    ((aget (progressStep (completeJob ((startJob (applyStep (QStep.addDownload "u" "f" "j1" 0) initState) "j1" "d1" 1).1) "j1" 2) ({ downloadId := "d1", bytesDownloaded := 5, totalBytes := none, percentage := none, status := SessStatus.completed } : ProgressEvt) 4).jobs "j1").map QueueJob.status = some JobStatus.completed) := by
  have h := status_transition_spec
    (Reachable.step (Reachable.step (Reachable.step Reachable.init
      (QStep.addDownload "u" "f" "j1" 0)) (QStep.start "j1" "d1" 1)) (QStep.complete "j1" 2))
    "j1"
    (completeUpd 2 (startUpd "d1" 1 { id := "j1", type := JobType.download, url := "u", formatId := some "f", status := JobStatus.queued, createdAt := 0 }))
    3 "e" ({ downloadId := "d1", bytesDownloaded := 5, totalBytes := none, percentage := none, status := SessStatus.completed } : ProgressEvt)
    (by decide)
  refine ⟨h.1, ?_⟩
  have h4 := status_transition_spec
    (Reachable.step (Reachable.step (Reachable.step Reachable.init
      (QStep.addDownload "u" "f" "j1" 0)) (QStep.start "j1" "d1" 1)) (QStep.complete "j1" 2))
    "j1"
    (completeUpd 2 (startUpd "d1" 1 { id := "j1", type := JobType.download, url := "u", formatId := some "f", status := JobStatus.queued, createdAt := 0 }))
    4 "e" ({ downloadId := "d1", bytesDownloaded := 5, totalBytes := none, percentage := none, status := SessStatus.completed } : ProgressEvt)
    (by decide)
  exact h4.2.2.2 rfl (Or.inl rfl)

end Queue

end Downly

namespace Downly

theorem aupd_aupd {β : Type} (l : List (String × β)) (id : String) (f g : β → β) :
    aupd (aupd l id f) id g = aupd l id (fun x => g (f x)) := by
  induction l with
  | nil => rfl
  | cons e l ih =>
    by_cases he : e.1 = id <;> simp [aupd_cons, he, ih]

namespace Progress

open Queue (SessStatus)

/-- Counterexample to C6 as stated: the progress bus has no terminal
guard.  After `markCompleted`, a later `updateProgress` resets the
session status to `downloading`, and a later `markError` overwrites it to
`error`. -/
theorem terminal_not_immutable_counterexample :
    ((getProgress (markCompleted (createSession [] "u" "f" "d" 0) "d").1 "d").map SessProgress.status = some SessStatus.completed) ∧
    ((getProgress (updateProgress (markCompleted (createSession [] "u" "f" "d" 0) "d").1 "d" 10 none).1 "d").map SessProgress.status = some SessStatus.downloading) ∧
    ((getProgress (markError (markCompleted (createSession [] "u" "f" "d" 0) "d").1 "d" "boom").1 "d").map SessProgress.status = some SessStatus.error) := by
  exact ⟨by decide, by decide, by decide⟩

theorem markCompleted_none {ps : SessMap} {id : String} (ho : aget ps id = none) :
    markCompleted ps id = (ps, none) := by
  rw [Progress.markCompleted.eq_def, ho]

theorem markCompleted_some {ps : SessMap} {id : String} {sess : Session}
    (ho : aget ps id = some sess) :
    markCompleted ps id =
      (aupd ps id (fun s => { s with progress := completedUpd s.progress }),
        some (completedUpd sess.progress)) := by
  rw [Progress.markCompleted.eq_def, ho]

theorem markError_none {ps : SessMap} {id msg : String} (ho : aget ps id = none) :
    markError ps id msg = (ps, none) := by
  rw [Progress.markError.eq_def, ho]

theorem markError_some {ps : SessMap} {id msg : String} {sess : Session}
    (ho : aget ps id = some sess) :
    markError ps id msg =
      (aupd ps id (fun s => { s with progress := errorUpd msg s.progress }),
        some (errorUpd msg sess.progress)) := by
  rw [Progress.markError.eq_def, ho]

/-- C6 amended: a repeated terminal mark of the same kind is a no-op —
`markCompleted` and `markError` (with the same message) are idempotent on
the whole bus state and republish the same event — but terminal statuses
are not immutable: `updateProgress` on any existing session resets its
status to `downloading` (see the counterexample for the cross-kind
overwrites). -/
theorem terminal_mark_idempotent (ps : SessMap) (id msg : String) (b : Nat)
    (t : Option Nat) :
    markCompleted (markCompleted ps id).1 id = markCompleted ps id ∧
    markError (markError ps id msg).1 id msg = markError ps id msg ∧
    ((aget ps id).isSome →
      (getProgress (updateProgress ps id b t).1 id).map SessProgress.status =
        some SessStatus.downloading) := by
  refine ⟨?_, ?_, ?_⟩
  · cases ho : aget ps id with
    | none =>
      rw [markCompleted_none ho]
      exact markCompleted_none ho
    | some sess =>
      rw [markCompleted_some ho]
      have ho2 : aget (aupd ps id (fun s => { s with progress := completedUpd s.progress })) id =
          some { sess with progress := completedUpd sess.progress } := by
        rw [aget_aupd_self, ho]
        rfl
      rw [markCompleted_some ho2, aupd_aupd]
      rfl
  · cases ho : aget ps id with
    | none =>
      rw [markError_none ho]
      exact markError_none ho
    | some sess =>
      rw [markError_some ho]
      have ho2 : aget (aupd ps id (fun s => { s with progress := errorUpd msg s.progress })) id =
          some { sess with progress := errorUpd msg sess.progress } := by
        rw [aget_aupd_self, ho]
        rfl
      rw [markError_some ho2, aupd_aupd]
      rfl
  · intro hex
    rw [Option.isSome_iff_exists] at hex
    rcases hex with ⟨sess, hsess⟩
    rw [Progress.updateProgress.eq_def, hsess]
    rw [Progress.getProgress.eq_def]
    simp only [aget_aupd_self, hsess, Option.map_some']
    rfl

/-- Witness for the amended C6 on a concrete session. -/
theorem terminal_mark_idempotent_witness :
    (getProgress (updateProgress (createSession [] "u" "f" "d" 0) "d" 7 none).1 "d").map SessProgress.status = some SessStatus.downloading :=
  (terminal_mark_idempotent (createSession [] "u" "f" "d" 0) "d" "m" 7 none).2.2 (by decide)

end Progress

end Downly

namespace Downly

namespace Progress

theorem updateProgress_none {ps : SessMap} {id : String} (b : Nat) (t : Option Nat)
    (ho : aget ps id = none) : updateProgress ps id b t = (ps, none) := by
  rw [Progress.updateProgress.eq_def, ho]

theorem updateProgress_some {ps : SessMap} {id : String} {sess : Session} (b : Nat)
    (t : Option Nat) (ho : aget ps id = some sess) :
    updateProgress ps id b t =
      (aupd ps id (fun s => { s with progress := freshProgress id b t }),
        some (freshProgress id b t)) := by
  rw [Progress.updateProgress.eq_def, ho]

end Progress

namespace Stream

open Progress
open Queue (SessStatus)

/-- Counterexample to C7 as stated: the percentage is not capped at 100.
With a 3 MiB chunk counted and the extractor's stderr estimating the
total as 1.00 MiB, the published progress event carries
`percentage = 300`. -/
theorem percentage_overflow_counterexample :
    ((runItems "d" { bytes := 0, sessions := createSession [] "u" "f" "d" 0 } [StreamItem.chunk 3145728, StreamItem.stderrLine "[download]  10.0% of 1.00MiB at 5.00MiB/s ETA 00:01"]).2.map SessProgress.percentage = [none, some 300]) ∧
    ((runItems "d" { bytes := 0, sessions := createSession [] "u" "f" "d" 0 } [StreamItem.chunk 3145728, StreamItem.stderrLine "[download]  10.0% of 1.00MiB at 5.00MiB/s ETA 00:01"]).2.map SessProgress.status = [SessStatus.downloading, SessStatus.downloading]) ∧
    parseTotal "[download]  10.0% of 1.00MiB at 5.00MiB/s ETA 00:01" = some 1048576 := by
  exact ⟨by decide, by decide, by decide⟩

/-- The published byte counts never decrease: each event carries the
current counter, which chunks only increase. -/
theorem runItems_bytes_chain (downloadId : String) :
    ∀ (items : List StreamItem) (st : RunState),
      (∀ p, getProgress st.sessions downloadId = some p → p.bytesDownloaded ≤ st.bytes) →
      List.Chain (fun a b : Nat => a ≤ b) st.bytes
        ((runItems downloadId st items).2.map SessProgress.bytesDownloaded) := by
  have hweak : ∀ (a b : Nat) (l : List Nat), a ≤ b →
      List.Chain (fun a b : Nat => a ≤ b) b l → List.Chain (fun a b : Nat => a ≤ b) a l := by
    intro a b l hab hc
    cases hc with
    | nil => exact List.Chain.nil
    | cons h1 h2 => exact List.Chain.cons (le_trans hab h1) h2
  intro items
  induction items with
  | nil => intro st _; exact List.Chain.nil
  | cons it rest ih =>
    intro st hb
    rw [Stream.runItems]
    cases it with
    | chunk size =>
      rw [Stream.stepItem]
      by_cases hemit : (st.bytes + size) % 65536 = 0 ∨ size ≥ 65536
      · rw [if_pos hemit]
        cases ho : aget st.sessions downloadId with
        | none =>
          rw [updateProgress_none _ _ ho]
          simp only [Option.toList_none, List.nil_append, List.map]
          refine hweak _ _ _ (Nat.le_add_right _ _) (ih ⟨st.bytes + size, st.sessions⟩ ?_)
          intro p hp
          exact le_trans (hb p hp) (Nat.le_add_right _ _)
        | some sess =>
          rw [updateProgress_some _ _ ho]
          simp only [Option.toList_some, List.cons_append, List.nil_append, List.map_cons]
          refine List.Chain.cons (Nat.le_add_right _ _)
            (ih ⟨st.bytes + size, aupd st.sessions downloadId (fun s => { s with progress := freshProgress downloadId (st.bytes + size) none })⟩ ?_)
          intro p hp
          rw [Progress.getProgress.eq_def] at hp
          simp only [aget_aupd_self, ho, Option.map_some'] at hp
          injection hp with hp
          subst hp
          exact le_of_eq rfl
      · rw [if_neg hemit]
        simp only [List.nil_append]
        refine hweak _ _ _ (Nat.le_add_right _ _) (ih ⟨st.bytes + size, st.sessions⟩ ?_)
        intro p hp
        exact le_trans (hb p hp) (Nat.le_add_right _ _)
    | stderrLine line =>
      rw [Stream.stepItem]
      cases hpt : parseTotal line with
      | none =>
        simp only [List.nil_append]
        exact ih st hb
      | some t =>
        simp only
        cases ho : aget st.sessions downloadId with
        | none =>
          rw [updateProgress_none _ _ ho]
          simp only [Option.toList_none, List.nil_append, List.map]
          exact ih ⟨st.bytes, st.sessions⟩ hb
        | some sess =>
          rw [updateProgress_some _ _ ho]
          simp only [Option.toList_some, List.cons_append, List.nil_append, List.map_cons]
          refine List.Chain.cons (le_refl st.bytes)
            (ih ⟨st.bytes, aupd st.sessions downloadId (fun s => { s with progress := freshProgress downloadId st.bytes (some t) })⟩ ?_)
          intro p hp
          rw [Progress.getProgress.eq_def] at hp
          simp only [aget_aupd_self, ho, Option.map_some'] at hp
          injection hp with hp
          subst hp
          exact le_of_eq rfl
    | flush =>
      rw [Stream.stepItem]
      simp only
      cases ho : aget st.sessions downloadId with
      | none =>
        rw [updateProgress_none _ _ ho, markCompleted_none ho]
        simp only [Option.toList_none, List.nil_append, List.map]
        exact ih ⟨st.bytes, st.sessions⟩ hb
      | some sess =>
        rw [updateProgress_some _ _ ho]
        have ho2 : aget (aupd st.sessions downloadId
            (fun s => { s with progress := freshProgress downloadId st.bytes none })) downloadId =
            some { sess with progress := freshProgress downloadId st.bytes none } := by
          rw [aget_aupd_self, ho]
          rfl
        rw [markCompleted_some ho2]
        simp only [Option.toList_some, List.cons_append, List.nil_append, List.map_cons]
        refine List.Chain.cons (le_refl st.bytes) (List.Chain.cons (le_refl st.bytes)
          (ih ⟨st.bytes, aupd (aupd st.sessions downloadId (fun s => { s with progress := freshProgress downloadId st.bytes none })) downloadId (fun s => { s with progress := completedUpd s.progress })⟩ ?_))
        intro p hp
        rw [Progress.getProgress.eq_def] at hp
        rw [aupd_aupd] at hp
        simp only [aget_aupd_self, ho, Option.map_some'] at hp
        injection hp with hp
        subst hp
        exact le_of_eq rfl

/-- C7 amended: over any run of the `streamDownload` wiring (chunks,
stderr progress lines, flush), the published `bytesDownloaded` values are
monotone non-decreasing; the percentage bound fails (see the
counterexample): `percentage = Math.round(100·bytes/total)` is not
capped, and with a stderr-estimated total below the true size it exceeds
100. -/
theorem progress_bytes_monotone (url formatId downloadId : String) (now : Nat)
    (items : List StreamItem) :
    List.Chain' (fun a b : SessProgress => a.bytesDownloaded ≤ b.bytesDownloaded)
      ((runItems downloadId
        { bytes := 0, sessions := createSession [] url formatId downloadId now } items).2) := by
  have h := runItems_bytes_chain downloadId items
    { bytes := 0, sessions := createSession [] url formatId downloadId now }
    (by
      intro p hp
      rw [Progress.createSession.eq_def] at hp
      simp only [aget_nil, Option.isSome_none, Bool.false_eq_true, if_false,
        List.nil_append] at hp
      rw [Progress.getProgress.eq_def, aget_single, if_pos rfl] at hp
      simp only [Option.map_some'] at hp
      injection hp with hp
      exact le_of_eq (by rw [← hp]))
  have conv : ∀ (a0 : Nat) (l : List Nat), List.Chain (fun a b : Nat => a ≤ b) a0 l →
      List.Chain' (fun a b : Nat => a ≤ b) l := by
    intro a0 l hc
    cases hc with
    | nil => exact trivial
    | cons hab hc2 => exact hc2
  exact (List.chain'_map SessProgress.bytesDownloaded).mp (conv _ _ h)

end Stream

namespace UrlPolicy

theorem hostBlocked_eq_false_iff (h : String) :
    hostBlocked h = false ↔
      blockedPattern h = false ∧ h ≠ "localhost" ∧ h ≠ "127.0.0.1" ∧ h ≠ "::1" := by
  rw [UrlPolicy.hostBlocked]
  simp only [Bool.or_eq_false_iff, beq_eq_false_iff_ne, ne_eq]
  tauto

/-- C8: `isValidUrl` is a deterministic predicate: it returns `true`
exactly when the URL is non-empty, at most 2048 characters, parses, has
an `http:`/`https:` protocol, and its lower-cased hostname is non-empty
and matches nothing on the blocklist (anchored patterns plus the
explicit `localhost`/`127.0.0.1`/`::1` equality checks). -/
theorem isValidUrl_spec (url : String) (parse : String → Option UrlParts) :
    isValidUrl url parse = true ↔
      url ≠ "" ∧ url.length ≤ 2048 ∧
      ∃ u, parse url = some u ∧ (u.protocol = "http:" ∨ u.protocol = "https:") ∧
        Text.toLowerString u.hostname ≠ "" ∧
        hostBlocked (Text.toLowerString u.hostname) = false := by
  rw [UrlPolicy.isValidUrl]
  by_cases h0 : url = ""
  · rw [if_pos h0]
    simp [h0]
  · rw [if_neg h0]
    by_cases h1 : url.length > 2048
    · rw [if_pos h1]
      simp only [Bool.false_eq_true, false_iff, not_and]
      intro _ h2
      omega
    · rw [if_neg h1]
      cases hp : parse url with
      | none =>
        simp only [Bool.false_eq_true, false_iff, not_and, not_exists]
        intro _ _ u hu hrest
        exact absurd hu (by simp)
      | some u =>
        simp only
        constructor
        · intro hv
          by_cases hpr : u.protocol = "http:" ∨ u.protocol = "https:"
          · rw [if_neg (not_not_intro hpr)] at hv
            by_cases hbp : blockedPattern (Text.toLowerString u.hostname) = true
            · rw [if_pos hbp] at hv
              exact absurd hv (by simp)
            · rw [if_neg hbp] at hv
              by_cases heq : Text.toLowerString u.hostname = "localhost" ∨
                  Text.toLowerString u.hostname = "127.0.0.1" ∨
                  Text.toLowerString u.hostname = "::1"
              · rw [if_pos heq] at hv
                exact absurd hv (by simp)
              · rw [if_neg heq] at hv
                by_cases hemp : Text.toLowerString u.hostname = ""
                · rw [if_pos hemp] at hv
                  exact absurd hv (by simp)
                · refine ⟨h0, by omega, u, rfl, hpr, hemp, ?_⟩
                  rw [hostBlocked_eq_false_iff]
                  refine ⟨by simpa using hbp, ?_, ?_, ?_⟩ <;>
                    (intro hx; exact heq (by tauto))
          · rw [if_pos hpr] at hv
            exact absurd hv (by simp)
        · rintro ⟨_, _, v, hv, hvp, hvne, hvb⟩
          injection hv with hv
          subst hv
          rw [if_neg (not_not_intro hvp)]
          rw [hostBlocked_eq_false_iff] at hvb
          rw [if_neg (by simp [hvb.1])]
          rw [if_neg (by rintro (hx | hx | hx) <;> [exact hvb.2.1 hx; exact hvb.2.2.1 hx; exact hvb.2.2.2 hx])]
          rw [if_neg hvne]

end UrlPolicy

namespace Analyze

theorem tripleOf_eq_iff (e p : ProcFormat) :
    tripleOf e = tripleOf p ↔
      e.type = p.type ∧ e.ext = p.ext ∧ e.resolution = p.resolution := by
  rw [Analyze.tripleOf, Analyze.tripleOf]
  simp [Prod.ext_iff]

theorem fmtKey_of_triple {a b : ProcFormat} (h : tripleOf a = tripleOf b) :
    fmtKey a = fmtKey b := by
  rw [tripleOf_eq_iff] at h
  rw [Analyze.fmtKey, Analyze.fmtKey, h.1, h.2.1, h.2.2]

theorem procStep_cases (st : List String × List ProcFormat) (f : RawFormat) :
    (passes f = false ∧ procStep st f = st) ∨
    (passes f = true ∧ fmtKey (mkProc f) ∉ st.1 ∧
      procStep st f = (fmtKey (mkProc f) :: st.1, st.2 ++ [mkProc f])) ∨
    (passes f = true ∧ fmtKey (mkProc f) ∈ st.1 ∧
      st.2.findIdx? (fun e => e.type = (mkProc f).type ∧ e.ext = (mkProc f).ext ∧
        e.resolution = (mkProc f).resolution) = none ∧ procStep st f = st) ∨
    (passes f = true ∧ fmtKey (mkProc f) ∈ st.1 ∧
      ∃ i existing, st.2[i]? = some existing ∧
        st.2.findIdx? (fun e => e.type = (mkProc f).type ∧ e.ext = (mkProc f).ext ∧
          e.resolution = (mkProc f).resolution) = some i ∧
        tripleOf existing = tripleOf (mkProc f) ∧
        (((mkProc f).filesize ≠ "unknown" ∧ existing.filesize = "unknown" ∧
            procStep st f = (st.1, st.2.set i (mkProc f))) ∨
          (¬ ((mkProc f).filesize ≠ "unknown" ∧ existing.filesize = "unknown") ∧
            procStep st f = st))) := by
  by_cases hpass : passes f = true
  · by_cases hk : fmtKey (mkProc f) ∈ st.1
    · have hc : st.1.contains (fmtKey (mkProc f)) = true := by simp [hk]
      cases hfi : st.2.findIdx? (fun e => e.type = (mkProc f).type ∧ e.ext = (mkProc f).ext ∧
          e.resolution = (mkProc f).resolution) with
      | none =>
        refine Or.inr (Or.inr (Or.inl ⟨hpass, hk, rfl, ?_⟩))
        rw [Analyze.procStep.eq_def]
        rw [if_neg (not_not_intro hpass)]
        simp only [hc, if_true, hfi]
      | some i =>
        rcases List.findIdx?_eq_some_iff_getElem.mp hfi with ⟨hlt, hpi, _⟩
        refine Or.inr (Or.inr (Or.inr ⟨hpass, hk, i, st.2.get ⟨i, hlt⟩,
          by simp [List.getElem?_eq_getElem hlt, List.get_eq_getElem], rfl, ?_, ?_⟩))
        · rw [tripleOf_eq_iff]
          simpa [List.get_eq_getElem] using hpi
        · have hg2 : st.2.get? i = some (st.2.get ⟨i, hlt⟩) := by
            simp [List.get?_eq_getElem?, List.getElem?_eq_getElem hlt, List.get_eq_getElem]
          by_cases hrep : (mkProc f).filesize ≠ "unknown" ∧ (st.2.get ⟨i, hlt⟩).filesize = "unknown"
          · refine Or.inl ⟨hrep.1, hrep.2, ?_⟩
            rw [Analyze.procStep.eq_def]
            rw [if_neg (not_not_intro hpass)]
            simp only [hc, if_true, hfi, hg2]
            rw [if_pos hrep]
          · refine Or.inr ⟨hrep, ?_⟩
            rw [Analyze.procStep.eq_def]
            rw [if_neg (not_not_intro hpass)]
            simp only [hc, if_true, hfi, hg2]
            rw [if_neg hrep]
    · have hc : st.1.contains (fmtKey (mkProc f)) = false := by simp [hk]
      refine Or.inr (Or.inl ⟨hpass, hk, ?_⟩)
      rw [Analyze.procStep.eq_def]
      rw [if_neg (not_not_intro hpass)]
      simp only [hc]
      rfl
  · refine Or.inl ⟨by simpa using hpass, ?_⟩
    rw [Analyze.procStep.eq_def]
    rw [if_pos hpass]

theorem procStep_keys_sub (st : List String × List ProcFormat) (f : RawFormat) :
    st.1 ⊆ (procStep st f).1 := by
  rcases procStep_cases st f with ⟨_, he⟩ | ⟨_, _, he⟩ | ⟨_, _, _, he⟩ |
    ⟨_, _, i, ex, _, _, _, ⟨_, _, he⟩ | ⟨_, he⟩⟩ <;> rw [he]
  · exact fun a ha => ha
  · exact fun a ha => List.mem_cons_of_mem _ ha
  · exact fun a ha => ha
  · exact fun a ha => ha
  · exact fun a ha => ha

theorem foldl_procStep_keys_sub (fs : List RawFormat) :
    ∀ st : List String × List ProcFormat, st.1 ⊆ (fs.foldl procStep st).1 := by
  induction fs with
  | nil => exact fun st a ha => ha
  | cons f rest ih =>
    intro st
    exact fun a ha => ih (procStep st f) (procStep_keys_sub st f ha)

theorem procStep_keysInv (st : List String × List ProcFormat) (f : RawFormat)
    (h : ∀ e ∈ st.2, fmtKey e ∈ st.1) :
    ∀ e ∈ (procStep st f).2, fmtKey e ∈ (procStep st f).1 := by
  rcases procStep_cases st f with ⟨_, he⟩ | ⟨_, _, he⟩ | ⟨_, _, _, he⟩ |
    ⟨_, _, i, ex, hg, _, htr, ⟨_, _, he⟩ | ⟨_, he⟩⟩ <;> rw [he]
  · exact h
  · intro e hme
    rcases List.mem_append.mp hme with hml | hml
    · exact List.mem_cons_of_mem _ (h e hml)
    · rw [List.mem_singleton.mp hml]
      exact List.mem_cons_self _ _
  · exact h
  · intro e hme
    rcases List.mem_or_eq_of_mem_set hme with hml | hml
    · exact h e hml
    · subst hml
      rw [← fmtKey_of_triple htr]
      rcases List.getElem?_eq_some.mp hg with ⟨hlt, hge⟩
      exact h ex (hge ▸ List.getElem_mem hlt)
  · exact h

theorem procStep_nodupT (st : List String × List ProcFormat) (f : RawFormat)
    (hkeys : ∀ e ∈ st.2, fmtKey e ∈ st.1)
    (h : (st.2.map tripleOf).Nodup) : ((procStep st f).2.map tripleOf).Nodup := by
  rcases procStep_cases st f with ⟨_, he⟩ | ⟨_, hk, he⟩ | ⟨_, _, _, he⟩ |
    ⟨_, _, i, ex, hg, _, htr, ⟨_, _, he⟩ | ⟨_, he⟩⟩ <;> rw [he]
  · exact h
  · rw [List.map_append]
    rw [List.nodup_append]
    refine ⟨h, List.nodup_singleton _, ?_⟩
    intro a ha hb
    rw [List.map_singleton, List.mem_singleton] at hb
    rcases List.mem_map.mp ha with ⟨e, hme, hte⟩
    exact hk (by rw [← fmtKey_of_triple (hte.trans hb)]; exact hkeys e hme)
  · exact h
  · rcases List.getElem?_eq_some.mp hg with ⟨hlt, hge⟩
    rw [List.map_set]
    have hset : (st.2.map tripleOf).set i (tripleOf (mkProc f)) = st.2.map tripleOf := by
      apply List.ext_getElem?
      intro n
      rw [List.getElem?_set]
      split
      · rename_i hin
        subst hin
        rw [if_pos (by simpa using hlt)]
        rw [List.getElem?_map, List.getElem?_eq_getElem hlt]
        simp [hge, htr]
      · rfl
    rw [hset]
    exact h
  · exact h

theorem foldl_procStep_inv (fs : List RawFormat) :
    ∀ st : List String × List ProcFormat,
      (∀ e ∈ st.2, fmtKey e ∈ st.1) → (st.2.map tripleOf).Nodup →
      (∀ e ∈ (fs.foldl procStep st).2, fmtKey e ∈ (fs.foldl procStep st).1) ∧
        ((fs.foldl procStep st).2.map tripleOf).Nodup := by
  induction fs with
  | nil => exact fun st h1 h2 => ⟨h1, h2⟩
  | cons f rest ih =>
    intro st h1 h2
    exact ih (procStep st f) (procStep_keysInv st f h1) (procStep_nodupT st f h1 h2)

theorem procStep_origin (st : List String × List ProcFormat) (f : RawFormat) :
    ∀ e ∈ (procStep st f).2, (∃ g ∈ st.2, tripleOf g = tripleOf e) ∨ fmtKey e ∉ st.1 := by
  rcases procStep_cases st f with ⟨_, he⟩ | ⟨_, hk, he⟩ | ⟨_, _, _, he⟩ |
    ⟨_, _, i, ex, hg, _, htr, ⟨_, _, he⟩ | ⟨_, he⟩⟩ <;> rw [he]
  · exact fun e hme => Or.inl ⟨e, hme, rfl⟩
  · intro e hme
    rcases List.mem_append.mp hme with hml | hml
    · exact Or.inl ⟨e, hml, rfl⟩
    · rw [List.mem_singleton.mp hml]
      exact Or.inr hk
  · exact fun e hme => Or.inl ⟨e, hme, rfl⟩
  · intro e hme
    rcases List.mem_or_eq_of_mem_set hme with hml | hml
    · exact Or.inl ⟨e, hml, rfl⟩
    · subst hml
      rcases List.getElem?_eq_some.mp hg with ⟨hlt, hge⟩
      exact Or.inl ⟨ex, hge ▸ List.getElem_mem hlt, htr⟩
  · exact fun e hme => Or.inl ⟨e, hme, rfl⟩

theorem foldl_procStep_origin (fs : List RawFormat) :
    ∀ st : List String × List ProcFormat, ∀ e ∈ (fs.foldl procStep st).2,
      (∃ g ∈ st.2, tripleOf g = tripleOf e) ∨ fmtKey e ∉ st.1 := by
  induction fs with
  | nil => exact fun st e hme => Or.inl ⟨e, hme, rfl⟩
  | cons f rest ih =>
    intro st e hme
    rcases ih (procStep st f) e hme with ⟨g, hmg, htg⟩ | hnk
    · rcases procStep_origin st f g hmg with ⟨g2, hmg2, htg2⟩ | hnk2
      · exact Or.inl ⟨g2, hmg2, htg2.trans htg⟩
      · exact Or.inr (by rw [← fmtKey_of_triple htg]; exact hnk2)
    · exact Or.inr (fun hx => hnk (procStep_keys_sub st f hx))

theorem foldl_procStep_pref (fs : List RawFormat) :
    ∀ st : List String × List ProcFormat,
      (∀ e ∈ st.2, fmtKey e ∈ st.1) → (st.2.map tripleOf).Nodup →
      ∀ e₀ ∈ (fs.foldl procStep st).2, e₀.filesize = "unknown" →
        (∀ e ∈ st.2, tripleOf e = tripleOf e₀ → e.filesize = "unknown") ∧
        (∀ f ∈ fs, passes f = true → tripleOf (mkProc f) = tripleOf e₀ →
          (mkProc f).filesize = "unknown") := by
  induction fs with
  | nil =>
    intro st hkeys hnd e₀ hm0 hu0
    refine ⟨?_, fun f hf => absurd hf (List.not_mem_nil f)⟩
    intro e hme htre
    by_cases hee : e = e₀
    · rw [hee]
      exact hu0
    · have hpw : st.2.Pairwise (fun a b => tripleOf a ≠ tripleOf b) :=
        List.pairwise_map.mp hnd
      have hs : Symmetric (fun a b : ProcFormat => tripleOf a ≠ tripleOf b) := by
        intro x y hxy hyx
        exact hxy hyx.symm
      exact absurd htre (hpw.forall hs hme hm0 hee)
  | cons f rest ih =>
    intro st hkeys hnd e₀ hm0 hu0
    have hkeys2 := procStep_keysInv st f hkeys
    have hnd2 := procStep_nodupT st f hkeys hnd
    rcases ih (procStep st f) hkeys2 hnd2 e₀ hm0 hu0 with ⟨A2, B2⟩
    rcases procStep_cases st f with ⟨hp, he⟩ | ⟨hp, hk, he⟩ | ⟨hp, hk, hfi, he⟩ |
      ⟨hp, hk, i, ex, hg, hfi, htr, ⟨hknown, hexu, he⟩ | ⟨hncond, he⟩⟩
    · rw [he] at A2
      refine ⟨A2, ?_⟩
      intro g hg2 hpg htg
      rcases List.mem_cons.mp hg2 with hg3 | hg3
      · subst hg3
        rw [hp] at hpg
        exact absurd hpg (by simp)
      · exact B2 g hg3 hpg htg
    · rw [he] at A2
      refine ⟨?_, ?_⟩
      · intro e hme htre
        exact A2 e (List.mem_append.mpr (Or.inl hme)) htre
      · intro g hg2 hpg htg
        rcases List.mem_cons.mp hg2 with hg3 | hg3
        · subst hg3
          exact A2 (mkProc g) (List.mem_append.mpr (Or.inr (List.mem_singleton.mpr rfl))) htg
        · exact B2 g hg3 hpg htg
    · rw [he] at A2
      refine ⟨A2, ?_⟩
      intro g hg2 hpg htg
      rcases List.mem_cons.mp hg2 with hg3 | hg3
      · subst hg3
        have horig := foldl_procStep_origin rest (procStep st g) e₀ hm0
        rw [he] at horig
        rcases horig with ⟨g2, hmg2, htg2⟩ | hnk
        · have htgf : tripleOf g2 = tripleOf (mkProc g) := htg2.trans htg.symm
          rcases (tripleOf_eq_iff _ _).mp htgf with ⟨h1, h2, h3⟩
          have hfalse := List.findIdx?_eq_none_iff.mp hfi g2 hmg2
          simp [h1, h2, h3] at hfalse
        · exact absurd (fmtKey_of_triple htg ▸ hk) hnk
      · exact B2 g hg3 hpg htg
    · by_cases htpe : tripleOf (mkProc f) = tripleOf e₀
      · rcases List.getElem?_eq_some.mp hg with ⟨hlt, hge⟩
        have hmem : mkProc f ∈ (procStep st f).2 := by
          rw [he]
          have hlt2 : i < (st.2.set i (mkProc f)).length := by simpa using hlt
          have hgeq : (st.2.set i (mkProc f)).get ⟨i, hlt2⟩ = mkProc f := by
            simp [List.get_eq_getElem]
          have hmm := List.get_mem (st.2.set i (mkProc f)) i hlt2
          rw [hgeq] at hmm
          exact hmm
        exact absurd (A2 (mkProc f) hmem htpe) hknown
      · refine ⟨?_, ?_⟩
        · intro e hme htre
          rcases List.mem_iff_getElem.mp hme with ⟨j, hj, hje⟩
          rcases List.getElem?_eq_some.mp hg with ⟨hlt, hge⟩
          have hji : j ≠ i := by
            intro hji
            subst hji
            apply htpe
            rw [← htr, ← hge, hje, htre]
          have hmem2 : e ∈ st.2.set i (mkProc f) := by
            have hgj : (st.2.set i (mkProc f))[j]? = some e := by
              rw [List.getElem?_set]
              rw [if_neg (fun hh => hji hh.symm)]
              simp [List.getElem?_eq_getElem hj, hje]
            rcases List.getElem?_eq_some.mp hgj with ⟨hlt2, hge2⟩
            exact hge2 ▸ List.getElem_mem hlt2
          exact A2 e (by rw [he]; exact hmem2) htre
        · intro g hg2 hpg htg
          rcases List.mem_cons.mp hg2 with hg3 | hg3
          · subst hg3
            exact absurd htg htpe
          · exact B2 g hg3 hpg htg
    · rw [he] at A2
      refine ⟨A2, ?_⟩
      intro g hg2 hpg htg
      rcases List.mem_cons.mp hg2 with hg3 | hg3
      · subst hg3
        by_cases hpu : (mkProc g).filesize = "unknown"
        · exact hpu
        · have hexk : ex.filesize ≠ "unknown" := fun hexu2 => hncond ⟨hpu, hexu2⟩
          rcases List.getElem?_eq_some.mp hg with ⟨hlt, hge⟩
          exact absurd (A2 ex (hge ▸ List.getElem_mem hlt) (htr.trans htg)) hexk
      · exact B2 g hg3 hpg htg

theorem fmtLE_trans : ∀ (a b c : ProcFormat), fmtLE a b → fmtLE b c → fmtLE a c := by
  intro a b c hab hbc
  rw [Analyze.fmtLE] at hab hbc ⊢
  by_cases h1 : a.type = b.type <;> by_cases h2 : b.type = c.type
  · rw [if_pos h1] at hab
    rw [if_pos h2] at hbc
    rw [if_pos (h1.trans h2)]
    simp only [decide_eq_true_eq] at hab hbc ⊢
    exact le_trans hbc hab
  · rw [if_pos h1] at hab
    rw [if_neg h2] at hbc
    rw [if_neg (by rw [h1]; exact h2)]
    simp only [decide_eq_true_eq] at hbc ⊢
    rw [h1]
    exact hbc
  · rw [if_neg h1] at hab
    rw [if_pos h2] at hbc
    rw [if_neg (by rw [← h2]; exact h1)]
    exact hab
  · rw [if_neg h1] at hab
    rw [if_neg h2] at hbc
    simp only [decide_eq_true_eq] at hab hbc
    exact absurd (hab.trans hbc.symm) h1

theorem fmtLE_total : ∀ (a b : ProcFormat), fmtLE a b || fmtLE b a := by
  intro a b
  rw [Analyze.fmtLE, Analyze.fmtLE]
  by_cases h : a.type = b.type
  · rw [if_pos h, if_pos h.symm]
    rcases Nat.le_total (extractResolutionValue b.resolution) (extractResolutionValue a.resolution) with hle | hle
    · simp [hle]
    · simp [hle]
  · rw [if_neg h, if_neg (fun hh => h hh.symm)]
    cases hA : a.type <;> cases hB : b.type <;> simp_all

/-- C9: for every extractor JSON input, the normalized format list has
pairwise-distinct `(kind, ext, resolution)` triples; every video entry
precedes every audio entry, and within one kind the numeric resolutions
are non-increasing; and whenever an output entry reports an unknown
filesize, every surviving raw format with the same triple also normalized
to an unknown filesize (duplicates are collapsed preferring a known
size). -/
theorem normalizeResponse_spec (info : RawInfo) :
    ((normalizeResponse info).formats.Pairwise (fun a b => tripleOf a ≠ tripleOf b)) ∧
    ((normalizeResponse info).formats.Pairwise (fun a b =>
      (a.type = FmtKind.audio → b.type = FmtKind.audio) ∧
      (a.type = b.type →
        extractResolutionValue b.resolution ≤ extractResolutionValue a.resolution))) ∧
    (∀ p ∈ (normalizeResponse info).formats, p.filesize = "unknown" →
      ∀ f ∈ info.formats, passes f = true → tripleOf (mkProc f) = tripleOf p →
        (mkProc f).filesize = "unknown") := by
  have hform : (normalizeResponse info).formats =
      ((info.formats.foldl procStep ([], [])).2).mergeSort fmtLE := rfl
  have hperm := List.mergeSort_perm (info.formats.foldl procStep ([], [])).2 fmtLE
  have hbase1 : ∀ e ∈ (([], []) : List String × List ProcFormat).2,
      fmtKey e ∈ (([], []) : List String × List ProcFormat).1 :=
    fun e he => absurd he (List.not_mem_nil e)
  have hbase2 : (((([], []) : List String × List ProcFormat)).2.map tripleOf).Nodup :=
    List.nodup_nil
  refine ⟨?_, ?_, ?_⟩
  · rw [hform]
    have hnd := (foldl_procStep_inv info.formats ([], []) hbase1 hbase2).2
    have hpw : ((info.formats.foldl procStep ([], [])).2).Pairwise
        (fun a b => tripleOf a ≠ tripleOf b) := List.pairwise_map.mp hnd
    have hs : ∀ {x y : ProcFormat},
        tripleOf x ≠ tripleOf y → tripleOf y ≠ tripleOf x :=
      fun hxy hyx => hxy hyx.symm
    exact (List.Perm.pairwise_iff hs hperm).mpr hpw
  · rw [hform]
    have hsorted := List.sorted_mergeSort fmtLE_trans fmtLE_total
      (info.formats.foldl procStep ([], [])).2
    refine hsorted.imp ?_
    intro a b hab
    rw [Analyze.fmtLE] at hab
    by_cases h : a.type = b.type
    · rw [if_pos h] at hab
      simp only [decide_eq_true_eq] at hab
      exact ⟨fun ha => h ▸ ha, fun _ => hab⟩
    · rw [if_neg h] at hab
      simp only [decide_eq_true_eq] at hab
      refine ⟨fun ha => absurd (hab.symm.trans ha) (by simp), fun hh => absurd hh h⟩
  · intro p hp hup f hf hpass htr
    have hp2 : p ∈ (info.formats.foldl procStep ([], [])).2 := by
      rw [hform] at hp
      exact hperm.subset hp
    exact (foldl_procStep_pref info.formats ([], []) hbase1 hbase2 p hp2 hup).2
      f hf hpass htr

end Analyze

namespace Filename

open Text

theorem wsGo_mem (l : List Char) :
    ∀ (b : Bool), ∀ c ∈ collapseWsGo b l, c = '_' ∨ (c ∈ l ∧ isJsWhitespace c = false) := by
  induction l with
  | nil =>
    intro b c hc
    exact absurd hc (List.not_mem_nil c)
  | cons a rest ih =>
    intro b c hc
    simp only [Filename.collapseWsGo] at hc
    by_cases hw : isJsWhitespace a = true
    · rw [if_pos hw] at hc
      cases b with
      | true =>
        rcases ih true c hc with h | ⟨h1, h2⟩
        · exact Or.inl h
        · exact Or.inr ⟨List.mem_cons_of_mem a h1, h2⟩
      | false =>
        rcases List.mem_cons.mp hc with h | h
        · exact Or.inl h
        · rcases ih true c h with h2 | ⟨h1, h2⟩
          · exact Or.inl h2
          · exact Or.inr ⟨List.mem_cons_of_mem a h1, h2⟩
    · rw [if_neg hw] at hc
      rcases List.mem_cons.mp hc with h | h
      · exact Or.inr ⟨h ▸ List.mem_cons_self a rest, h ▸ (by simpa using hw)⟩
      · rcases ih false c h with h2 | ⟨h1, h2⟩
        · exact Or.inl h2
        · exact Or.inr ⟨List.mem_cons_of_mem a h1, h2⟩

theorem wsGo_id (l : List Char) (h : ∀ c ∈ l, isJsWhitespace c = false) :
    ∀ b : Bool, collapseWsGo b l = l := by
  induction l with
  | nil => intro b; rfl
  | cons a rest ih =>
    intro b
    simp only [Filename.collapseWsGo]
    rw [if_neg (by rw [h a (List.mem_cons_self a rest)]; simp)]
    rw [ih (fun c hc => h c (List.mem_cons_of_mem a hc)) false]

theorem wsGo_len (l : List Char) : ∀ b : Bool, (collapseWsGo b l).length ≤ l.length := by
  induction l with
  | nil => intro b; exact le_refl 0
  | cons a rest ih =>
    intro b
    simp only [Filename.collapseWsGo]
    by_cases hw : isJsWhitespace a = true
    · rw [if_pos hw]
      cases b with
      | true =>
        simp only [List.length_cons]
        exact le_trans (ih true) (Nat.le_succ _)
      | false =>
        simp only [List.length_cons]
        exact Nat.succ_le_succ (ih true)
    · rw [if_neg hw]
      simp only [List.length_cons]
      exact Nat.succ_le_succ (ih false)

theorem wsGo_append (B : List Char) (hB : ∀ c ∈ B, isJsWhitespace c = false) :
    ∀ (A : List Char) (b : Bool), collapseWsGo b (A ++ B) = collapseWsGo b A ++ B := by
  intro A
  induction A with
  | nil =>
    intro b
    rw [List.nil_append]
    rw [wsGo_id B hB b]
    rfl
  | cons a rest ih =>
    intro b
    rw [List.cons_append]
    simp only [Filename.collapseWsGo]
    by_cases hw : isJsWhitespace a = true
    · rw [if_pos hw, if_pos hw]
      cases b with
      | true => exact ih true
      | false => rw [ih true]; rfl
    · rw [if_neg hw, if_neg hw]
      rw [ih false]
      rfl

theorem undGo_mem (l : List Char) :
    ∀ (b : Bool), ∀ c ∈ collapseUndGo b l, c = '_' ∨ c ∈ l := by
  induction l with
  | nil =>
    intro b c hc
    exact absurd hc (List.not_mem_nil c)
  | cons a rest ih =>
    intro b c hc
    simp only [Filename.collapseUndGo] at hc
    by_cases hu : a = '_'
    · rw [if_pos (by rw [hu])] at hc
      cases b with
      | true =>
        rcases ih true c hc with h | h
        · exact Or.inl h
        · exact Or.inr (List.mem_cons_of_mem a h)
      | false =>
        rcases List.mem_cons.mp hc with h | h
        · exact Or.inl h
        · rcases ih true c h with h2 | h2
          · exact Or.inl h2
          · exact Or.inr (List.mem_cons_of_mem a h2)
    · rw [if_neg (by simpa using hu)] at hc
      rcases List.mem_cons.mp hc with h | h
      · exact Or.inr (h ▸ List.mem_cons_self a rest)
      · rcases ih false c h with h2 | h2
        · exact Or.inl h2
        · exact Or.inr (List.mem_cons_of_mem a h2)

theorem undGo_len (l : List Char) : ∀ b : Bool, (collapseUndGo b l).length ≤ l.length := by
  induction l with
  | nil => intro b; exact le_refl 0
  | cons a rest ih =>
    intro b
    simp only [Filename.collapseUndGo]
    by_cases hu : a = '_'
    · rw [if_pos (by rw [hu])]
      cases b with
      | true =>
        simp only [List.length_cons]
        exact le_trans (ih true) (Nat.le_succ _)
      | false =>
        simp only [List.length_cons]
        exact Nat.succ_le_succ (ih true)
    · rw [if_neg (by simpa using hu)]
      simp only [List.length_cons]
      exact Nat.succ_le_succ (ih false)

theorem undGo_id_noUnd (l : List Char) (h : ∀ c ∈ l, c ≠ '_') :
    ∀ b : Bool, collapseUndGo b l = l := by
  induction l with
  | nil => intro b; rfl
  | cons a rest ih =>
    intro b
    simp only [Filename.collapseUndGo]
    rw [if_neg (by simpa using h a (List.mem_cons_self a rest))]
    rw [ih (fun c hc => h c (List.mem_cons_of_mem a hc)) false]

theorem undGo_append (B : List Char) (hB : ∀ c ∈ B, c ≠ '_') :
    ∀ (A : List Char) (b : Bool), collapseUndGo b (A ++ B) = collapseUndGo b A ++ B := by
  intro A
  induction A with
  | nil =>
    intro b
    rw [List.nil_append]
    rw [undGo_id_noUnd B hB b]
    rfl
  | cons a rest ih =>
    intro b
    rw [List.cons_append]
    by_cases hu : a = '_'
    · subst hu
      cases b <;> simp [Filename.collapseUndGo, ih true]
    · cases b <;> simp [Filename.collapseUndGo, hu, ih false]

theorem undGo_head_ne (l : List Char) :
    ∀ d, (collapseUndGo true l).head? = some d → d ≠ '_' := by
  induction l with
  | nil =>
    intro d hd
    exact absurd hd (by simp [Filename.collapseUndGo])
  | cons a rest ih =>
    intro d hd
    simp only [Filename.collapseUndGo] at hd
    by_cases hu : a = '_'
    · rw [if_pos (by rw [hu])] at hd
      exact ih d hd
    · rw [if_neg (by simpa using hu)] at hd
      rw [List.head?_cons] at hd
      injection hd with hd
      rw [← hd]
      exact hu

theorem undGo_chain (l : List Char) :
    ∀ b : Bool, List.Chain' (fun a c : Char => ¬(a = '_' ∧ c = '_')) (collapseUndGo b l) := by
  induction l with
  | nil => intro b; exact List.chain'_nil
  | cons a rest ih =>
    intro b
    by_cases hu : a = '_'
    · subst hu
      cases b with
      | true =>
        simp only [Filename.collapseUndGo, if_pos rfl]
        exact ih true
      | false =>
        simp only [Filename.collapseUndGo, if_pos rfl]
        simp only [Bool.false_eq_true, if_false]
        rw [if_pos trivial]
        rw [List.chain'_cons']
        refine ⟨?_, ih true⟩
        intro y hy hcontra
        exact undGo_head_ne rest y hy hcontra.2
    · cases b <;>
        (simp only [Filename.collapseUndGo]
         rw [if_neg (by simpa using hu)]
         rw [List.chain'_cons']
         refine ⟨?_, ih false⟩
         intro y _ hcontra
         exact hu hcontra.1)

theorem undGo_id_chain (l : List Char) :
    List.Chain' (fun a c : Char => ¬(a = '_' ∧ c = '_')) l →
    (collapseUndGo false l = l ∧
      ((∀ d, l.head? = some d → d ≠ '_') → collapseUndGo true l = l)) := by
  induction l with
  | nil => intro _; exact ⟨rfl, fun _ => rfl⟩
  | cons a rest ih =>
    intro hch
    rw [List.chain'_cons'] at hch
    rcases ih hch.2 with ⟨ih1, ih2⟩
    constructor
    · by_cases hu : a = '_'
      · have hrest : collapseUndGo true rest = rest := by
          apply ih2
          intro d hd hdu
          exact (hch.1 d hd) ⟨hu, hdu⟩
        subst hu
        simp only [Filename.collapseUndGo, if_pos rfl]
        simp only [Bool.false_eq_true, if_false]
        rw [if_pos trivial, hrest]
      · simp only [Filename.collapseUndGo]
        rw [if_neg (by simpa using hu)]
        rw [ih1]
    · intro hhead
      have hu : a ≠ '_' := hhead a List.head?_cons
      simp only [Filename.collapseUndGo]
      rw [if_neg (by simpa using hu)]
      rw [ih1]

theorem dropWhile_head_not (p : Char → Bool) :
    ∀ (l : List Char) (d : Char), (l.dropWhile p).head? = some d → p d = false := by
  intro l
  induction l with
  | nil =>
    intro d hd
    exact absurd hd (by simp)
  | cons a rest ih =>
    intro d hd
    rw [List.dropWhile_cons] at hd
    by_cases hp : p a = true
    · rw [if_pos hp] at hd
      exact ih d hd
    · rw [if_neg hp] at hd
      rw [List.head?_cons] at hd
      injection hd with hd
      rw [← hd]
      simpa using hp

theorem dropWhile_eq_self_of_head (p : Char → Bool) (l : List Char)
    (h : ∀ d, l.head? = some d → p d = false) : l.dropWhile p = l := by
  cases l with
  | nil => rfl
  | cons a rest =>
    rw [List.dropWhile_cons]
    rw [if_neg (by rw [h a List.head?_cons]; simp)]

theorem stripEdgeUnd_mem (l : List Char) : ∀ c ∈ stripEdgeUnd l, c ∈ l := by
  intro c hc
  rw [Filename.stripEdgeUnd] at hc
  rw [List.mem_reverse] at hc
  have h1 := (List.dropWhile_suffix (fun c => c = '_')).subset hc
  rw [List.mem_reverse] at h1
  exact (List.dropWhile_suffix (fun c => c = '_')).subset h1

theorem stripEdgeUnd_len (l : List Char) : (stripEdgeUnd l).length ≤ l.length := by
  rw [Filename.stripEdgeUnd]
  rw [List.length_reverse]
  refine le_trans (List.dropWhile_suffix (fun c => c = '_')).length_le ?_
  rw [List.length_reverse]
  exact (List.dropWhile_suffix (fun c => c = '_')).length_le

theorem stripEdgeUnd_eq_self (l : List Char)
    (h1 : ∀ d, l.head? = some d → d ≠ '_')
    (h2 : ∀ d, l.getLast? = some d → d ≠ '_') : stripEdgeUnd l = l := by
  rw [Filename.stripEdgeUnd]
  rw [dropWhile_eq_self_of_head _ l (fun d hd => by simpa using h1 d hd)]
  rw [dropWhile_eq_self_of_head _ l.reverse (fun d hd => by
    rw [List.head?_reverse] at hd
    simpa using h2 d hd)]
  exact List.reverse_reverse l

theorem stripEdgeUnd_head (l : List Char) :
    ∀ d, (stripEdgeUnd l).head? = some d → d ≠ '_' := by
  intro d hd
  rw [Filename.stripEdgeUnd] at hd
  rw [List.head?_reverse] at hd
  rcases List.dropWhile_suffix (l := (l.dropWhile (fun c => c = '_')).reverse)
    (fun c => c = '_') with ⟨t, ht⟩
  have hlast : ((l.dropWhile (fun c => c = '_')).reverse).getLast? = some d := by
    rw [← ht, List.getLast?_append, hd]
    rfl
  rw [List.getLast?_reverse] at hlast
  have hno := dropWhile_head_not (fun c => c = '_') l d hlast
  simpa using hno

theorem stripEdgeUnd_last (l : List Char) :
    ∀ d, (stripEdgeUnd l).getLast? = some d → d ≠ '_' := by
  intro d hd
  rw [Filename.stripEdgeUnd] at hd
  rw [List.getLast?_reverse] at hd
  have := dropWhile_head_not (fun c => c = '_') _ d hd
  simpa using this

theorem jsTrim_mem (l : List Char) : ∀ c ∈ Text.jsTrim l, c ∈ l := by
  intro c hc
  rw [Text.jsTrim] at hc
  rw [List.mem_reverse] at hc
  have h1 := (List.dropWhile_suffix Text.isJsWhitespace).subset hc
  rw [List.mem_reverse] at h1
  exact (List.dropWhile_suffix Text.isJsWhitespace).subset h1

theorem jsTrim_len (l : List Char) : (Text.jsTrim l).length ≤ l.length := by
  rw [Text.jsTrim]
  rw [List.length_reverse]
  refine le_trans (List.dropWhile_suffix Text.isJsWhitespace).length_le ?_
  rw [List.length_reverse]
  exact (List.dropWhile_suffix Text.isJsWhitespace).length_le

theorem jsTrim_eq_self (l : List Char) (h : ∀ c ∈ l, isJsWhitespace c = false) :
    Text.jsTrim l = l := by
  rw [Text.jsTrim]
  have hhead : ∀ (m : List Char), (∀ c ∈ m, isJsWhitespace c = false) →
      m.dropWhile isJsWhitespace = m := by
    intro m hm
    apply dropWhile_eq_self_of_head
    intro d hd
    cases m with
    | nil => exact absurd hd (by simp)
    | cons a rest =>
      rw [List.head?_cons] at hd
      injection hd with hd
      exact hd ▸ hm a (List.mem_cons_self a rest)
  rw [hhead l h]
  rw [hhead l.reverse (fun c hc => h c (List.mem_reverse.mp hc))]
  exact List.reverse_reverse l

theorem ws_not_alnum (c : Char) (h : isJsWhitespace c = true) : c.isAlphanum = false := by
  rw [Text.isJsWhitespace] at h
  have hmem : c ∈ ['\t', '\n', '\x0b', '\x0c', '\r', ' ', ' ', ' ', ' ', ' ', ' ', ' ', ' ', ' ', ' ', ' ', ' ', ' ', ' ', ' ', ' ', ' ', ' ', '　', '﻿'] := of_decide_eq_true h
  have hall : (['\t', '\n', '\x0b', '\x0c', '\r', ' ', ' ', ' ', ' ', ' ', ' ', ' ', ' ', ' ', ' ', ' ', ' ', ' ', ' ', ' ', ' ', ' ', ' ', '　', '﻿'].all fun d => !d.isAlphanum) = true := by decide
  have hc := List.all_eq_true.mp hall c hmem
  simpa using hc

theorem alnum_not_ws (c : Char) (h : c.isAlphanum = true) : isJsWhitespace c = false := by
  cases hw : isJsWhitespace c with
  | false => rfl
  | true => simp [ws_not_alnum c hw] at h

theorem alnum_word (c : Char) (h : c.isAlphanum = true) : isWordChar c = true := by
  rw [Text.isWordChar]
  rw [show (c.isAlpha || c.isDigit) = c.isAlphanum from rfl, h]
  rfl

theorem alnum_ne_und (c : Char) (h : c.isAlphanum = true) : c ≠ '_' := by
  intro he
  rw [he] at h
  exact absurd h (by decide)

theorem alnum_keep (c : Char) (h : c.isAlphanum = true) : keepChar c = true := by
  rw [Filename.keepChar, alnum_word c h]
  rfl

theorem keep_class (c : Char) (hk : keepChar c = true) (hw : isJsWhitespace c = false) :
    isWordChar c = true ∨ c = '.' ∨ c = '-' := by
  rw [Filename.keepChar] at hk
  rcases (by simpa using hk :
      ((isWordChar c = true ∨ isJsWhitespace c = true) ∨ c = '.') ∨ c = '-') with ((h | h) | h) | h
  · exact Or.inl h
  · rw [h] at hw
    exact absurd hw (by simp)
  · exact Or.inr (Or.inl h)
  · exact Or.inr (Or.inr h)

theorem stripEdgeUnd_chain (l : List Char)
    (h : List.Chain' (fun a c : Char => ¬(a = '_' ∧ c = '_')) l) :
    List.Chain' (fun a c : Char => ¬(a = '_' ∧ c = '_')) (stripEdgeUnd l) := by
  have hsymm : ∀ (m : List Char), List.Chain' (fun a c : Char => ¬(a = '_' ∧ c = '_')) m →
      List.Chain' (fun a c : Char => ¬(a = '_' ∧ c = '_')) m.reverse := by
    intro m hm
    rw [List.chain'_reverse]
    refine hm.imp ?_
    intro a b hab hcon
    exact hab ⟨hcon.2, hcon.1⟩
  rw [Filename.stripEdgeUnd]
  have h1 := h.suffix (List.dropWhile_suffix (fun c => c = '_'))
  have h2 := hsymm _ h1
  have h3 := h2.suffix (List.dropWhile_suffix (fun c => c = '_'))
  exact hsymm _ h3

theorem dropWhile_append_dot (p : Char → Bool) (hdot : p '.' = false) (B : List Char) :
    ∀ A : List Char, (A ++ '.' :: B).dropWhile p = A.dropWhile p ++ '.' :: B := by
  intro A
  induction A with
  | nil =>
    rw [List.nil_append, List.dropWhile_cons, if_neg (by rw [hdot]; simp), List.dropWhile_nil,
      List.nil_append]
  | cons a rest ih =>
    rw [List.cons_append, List.dropWhile_cons, List.dropWhile_cons]
    by_cases hp : p a = true
    · rw [if_pos hp, if_pos hp]
      exact ih
    · rw [if_neg hp, if_neg hp]
      rw [List.cons_append]

theorem pipeline_chars (l : List Char) :
    ∀ c ∈ collapseUnd (collapseWs (l.filter keepChar)),
      keepChar c = true ∧ isJsWhitespace c = false := by
  intro c hc
  rcases undGo_mem (collapseWs (l.filter keepChar)) false c hc with rfl | hc2
  · exact ⟨by decide, by decide⟩
  · rcases wsGo_mem (l.filter keepChar) false c hc2 with rfl | ⟨hc3, hw⟩
    · exact ⟨by decide, by decide⟩
    · exact ⟨(List.mem_filter.mp hc3).2, hw⟩

theorem core_eq (l : List Char) (hl : l.length ≤ 100) :
    safeFilenameCore l = stripEdgeUnd (collapseUnd (collapseWs (l.filter keepChar))) := by
  rw [Filename.safeFilenameCore]
  have hlen : (stripEdgeUnd (collapseUnd (collapseWs (l.filter keepChar)))).length ≤ 100 :=
    le_trans (stripEdgeUnd_len _) (le_trans (undGo_len _ false) (le_trans (wsGo_len _ false)
      (le_trans (List.length_filter_le _ _) hl)))
  rw [List.take_of_length_le hlen]
  apply jsTrim_eq_self
  intro c hc
  exact (pipeline_chars l c (stripEdgeUnd_mem _ c hc)).2

theorem core_fixed (x : List Char)
    (hx : ∀ c ∈ x, keepChar c = true ∧ isJsWhitespace c = false)
    (hch : List.Chain' (fun a c : Char => ¬(a = '_' ∧ c = '_')) x)
    (hhead : ∀ d, x.head? = some d → d ≠ '_')
    (hlast : ∀ d, x.getLast? = some d → d ≠ '_')
    (hlen : x.length ≤ 100) :
    safeFilenameCore x = x := by
  rw [Filename.safeFilenameCore]
  have hfil : x.filter keepChar = x := List.filter_eq_self.mpr (fun c hc => (hx c hc).1)
  rw [hfil]
  have hws : collapseWs x = x := wsGo_id x (fun c hc => (hx c hc).2) false
  rw [hws]
  have hund : collapseUnd x = x := (undGo_id_chain x hch).1
  rw [hund]
  rw [stripEdgeUnd_eq_self x hhead hlast]
  rw [List.take_of_length_le hlen]
  exact jsTrim_eq_self x (fun c hc => (hx c hc).2)

theorem safeFilename_eq (name : String) (h : name ≠ "") :
    safeFilename name = if safeFilenameCore name.data = [] then "download"
      else String.mk (safeFilenameCore name.data) := by
  rw [Filename.safeFilename, if_neg h]

set_option maxHeartbeats 2000000 in
/-- Counterexample to C10 as stated: `safeFilename` is not idempotent.
On sixty repetitions of `"a "` the first pass yields a 100-character
string: the edge-trim runs before `slice(0, 100)`, and the cut ends the
result with `'_'` again, which a second pass then strips. -/
theorem safeFilename_not_idempotent_counterexample :
    safeFilename (safeFilename (String.mk (List.flatten (List.replicate 60 ['a', ' '])))) ≠
      safeFilename (String.mk (List.flatten (List.replicate 60 ['a', ' ']))) := by
  decide

set_option maxHeartbeats 2000000 in
/-- C10 amended: for inputs of at most 100 characters the sanitizer is
idempotent and preserves a trailing alphanumeric extension; and (for such
inputs) it emits only word characters, dots and hyphens, caps the length
at 100, and maps the empty string to `"download"`.  Idempotence and
extension preservation fail for longer inputs because `slice(0, 100)`
runs after the edge-underscore trim (see the counterexample). -/
theorem safeFilename_spec (s : String) (hs : s.length ≤ 100) :
    safeFilename (safeFilename s) = safeFilename s ∧
    (∀ c ∈ (safeFilename s).data, isWordChar c = true ∨ c = '.' ∨ c = '-') ∧
    (safeFilename s).length ≤ 100 ∧
    safeFilename "" = "download" ∧
    (∀ pre ext : List Char, s.data = pre ++ '.' :: ext → ext ≠ [] →
      (∀ c ∈ ext, c.isAlphanum = true) →
      ∃ q, (safeFilename s).data = q ++ '.' :: ext) := by
  by_cases hse : s = ""
  · subst hse
    refine ⟨by decide, by decide, by decide, by decide, ?_⟩
    intro pre ext hsplit hne hA
    rw [show ("" : String).data = [] from rfl] at hsplit
    rcases List.append_eq_nil.mp hsplit.symm with ⟨_, hx⟩
    exact absurd hx (List.cons_ne_nil _ _)
  · have hs2 : s.data.length ≤ 100 := hs
    have hX := core_eq s.data hs2
    have hXchars : ∀ c ∈ stripEdgeUnd (collapseUnd (collapseWs (s.data.filter keepChar))),
        keepChar c = true ∧ isJsWhitespace c = false :=
      fun c hc => pipeline_chars s.data c (stripEdgeUnd_mem _ c hc)
    have hXlen : (stripEdgeUnd (collapseUnd (collapseWs (s.data.filter keepChar)))).length ≤ 100 :=
      le_trans (stripEdgeUnd_len _) (le_trans (undGo_len _ false) (le_trans (wsGo_len _ false)
        (le_trans (List.length_filter_le _ _) hs2)))
    have hXfix : safeFilenameCore
        (stripEdgeUnd (collapseUnd (collapseWs (s.data.filter keepChar)))) =
        stripEdgeUnd (collapseUnd (collapseWs (s.data.filter keepChar))) := by
      apply core_fixed
      · exact hXchars
      · exact stripEdgeUnd_chain _ (undGo_chain _ false)
      · exact stripEdgeUnd_head _
      · exact stripEdgeUnd_last _
      · exact hXlen
    refine ⟨?_, ?_, ?_, by decide, ?_⟩
    · rw [safeFilename_eq s hse]
      by_cases hcore : safeFilenameCore s.data = []
      · rw [if_pos hcore]
        decide
      · rw [if_neg hcore]
        have hne2 : String.mk (safeFilenameCore s.data) ≠ "" := by
          intro h
          exact hcore (congrArg String.data h)
        rw [safeFilename_eq _ hne2]
        rw [show (String.mk (safeFilenameCore s.data)).data = safeFilenameCore s.data from rfl]
        have hfix2 : safeFilenameCore (safeFilenameCore s.data) = safeFilenameCore s.data := by
          rw [hX]
          exact hXfix
        rw [hfix2]
        rw [if_neg hcore]
    · intro c hc
      rw [safeFilename_eq s hse] at hc
      by_cases hcore : safeFilenameCore s.data = []
      · rw [if_pos hcore] at hc
        exact (by decide :
          ∀ c ∈ ("download" : String).data, isWordChar c = true ∨ c = '.' ∨ c = '-') c hc
      · rw [if_neg hcore] at hc
        rw [show (String.mk (safeFilenameCore s.data)).data = safeFilenameCore s.data from rfl] at hc
        rw [hX] at hc
        rcases hXchars c hc with ⟨hk, hw⟩
        exact keep_class c hk hw
    · rw [safeFilename_eq s hse]
      by_cases hcore : safeFilenameCore s.data = []
      · rw [if_pos hcore]
        decide
      · rw [if_neg hcore]
        show (safeFilenameCore s.data).length ≤ 100
        rw [hX]
        exact hXlen
    · intro pre ext hsplit hne hA
      have hBws : ∀ c ∈ '.' :: ext, isJsWhitespace c = false := by
        intro c hc
        rcases List.mem_cons.mp hc with rfl | h
        · decide
        · exact alnum_not_ws c (hA c h)
      have hBund : ∀ c ∈ '.' :: ext, c ≠ '_' := by
        intro c hc
        rcases List.mem_cons.mp hc with rfl | h
        · decide
        · exact alnum_ne_und c (hA c h)
      have h1 : s.data.filter keepChar = pre.filter keepChar ++ '.' :: ext := by
        rw [hsplit, List.filter_append, List.filter_cons,
          if_pos (by decide : keepChar '.' = true),
          List.filter_eq_self.mpr (fun c hc => alnum_keep c (hA c hc))]
      have h2 : collapseWsGo false (s.data.filter keepChar) =
          collapseWsGo false (pre.filter keepChar) ++ '.' :: ext := by
        rw [h1]
        exact wsGo_append _ hBws _ false
      have h3 : collapseUndGo false (collapseWsGo false (s.data.filter keepChar)) =
          collapseUndGo false (collapseWsGo false (pre.filter keepChar)) ++ '.' :: ext := by
        rw [h2]
        exact undGo_append _ hBund _ false
      have h4 : stripEdgeUnd (collapseUndGo false (collapseWsGo false (s.data.filter keepChar))) =
          (collapseUndGo false (collapseWsGo false (pre.filter keepChar))).dropWhile
            (fun c => c = '_') ++ '.' :: ext := by
        rw [h3]
        rw [Filename.stripEdgeUnd]
        rw [dropWhile_append_dot _ (by decide) ext _]
        have hid : (((collapseUndGo false (collapseWsGo false (pre.filter keepChar))).dropWhile
              (fun c => c = '_') ++ '.' :: ext).reverse).dropWhile (fun c => c = '_') =
            ((collapseUndGo false (collapseWsGo false (pre.filter keepChar))).dropWhile
              (fun c => c = '_') ++ '.' :: ext).reverse := by
          apply dropWhile_eq_self_of_head
          intro d hd
          rw [List.reverse_append, List.reverse_cons] at hd
          rcases hextr : ext.reverse with _ | ⟨d0, ds⟩
          · exfalso
            apply hne
            have hrr := congrArg List.reverse hextr
            simpa using hrr
          · rw [hextr] at hd
            rw [List.cons_append, List.cons_append, List.head?_cons] at hd
            injection hd with hd
            have hd0 : d0 ∈ ext := by
              rw [← List.mem_reverse, hextr]
              exact List.mem_cons_self d0 ds
            rw [← hd]
            exact decide_eq_false (alnum_ne_und d0 (hA d0 hd0))
        rw [hid, List.reverse_reverse]
      have h5 : safeFilenameCore s.data =
          (collapseUndGo false (collapseWsGo false (pre.filter keepChar))).dropWhile
            (fun c => c = '_') ++ '.' :: ext := by
        rw [hX]
        exact h4
      have hcne : safeFilenameCore s.data ≠ [] := by
        rw [h5]
        intro hx2
        rcases List.append_eq_nil.mp hx2 with ⟨_, h7⟩
        exact absurd h7 (List.cons_ne_nil _ _)
      rw [safeFilename_eq s hse]
      rw [if_neg hcne]
      refine ⟨(collapseUndGo false (collapseWsGo false (pre.filter keepChar))).dropWhile
        (fun c => c = '_'), ?_⟩
      rw [show (String.mk (safeFilenameCore s.data)).data = safeFilenameCore s.data from rfl]
      exact h5

theorem safeFilename_spec_witness :
    ("My Video.mp4" : String).length ≤ 100 ∧
    safeFilename (safeFilename "My Video.mp4") = safeFilename "My Video.mp4" ∧
    (∃ q, (safeFilename "My Video.mp4").data = q ++ '.' :: ['m', 'p', '4']) := by
  refine ⟨by decide, ?_, ?_⟩
  · exact (safeFilename_spec "My Video.mp4" (by decide)).1
  · exact (safeFilename_spec "My Video.mp4" (by decide)).2.2.2.2 ("My Video".data)
      ['m', 'p', '4'] (by decide) (by decide) (by decide)

end Filename

end Downly